import Mathlib

/-!
Grammar membership checker: tokenizer and derivation search.

A shallow embedding of `Compiler/Compiler/main.cpp`:

* `tokenize_with_sets` : greedy longest-match tokenizer over two symbol sets;
* `checkWord` : bounded breadth-first search over sentential forms.

Conventions of the embedding.

* `std::string` is a list of bytes (`Str`), `vector<string>` a list of strings
  (`Form`), `set<string>` a list of strings queried only through membership
  (`count`) and iteration.
* The tokenizer keeps the length of its input, the longest symbol length and the
  scan position in `int`; they are integers here and `toInt32` is the conversion
  `(int)s.size()`, so that the behaviour on strings of `2^31` bytes and more is
  that of the source.  The theorems on the tokenizer are stated for strings
  shorter than `2^31` bytes.
* Sizes and indices of the search are natural numbers.  The source keeps the
  sizes of a form and of a left-hand side in `int`; both agree as long as a form
  has fewer than `2^31` symbols.
* `exit(1)` in the tokenizer is the result `TokenizeResult.tokenizationError rem`,
  where `rem` is the unmatched remainder printed in the diagnostic.
* The `while` loops are recursions on a fuel counter and return `none` when the
  fuel runs out; the theorems `tokenizeLoop_fuel` and `bfs_fuel` show that the
  fuel handed over by the entry points is never used up.
* The diagnostic written by `checkWord` when the state cap is hit is kept as the
  outcome `Outcome.limitReached`; the boolean answer is `true` only for
  `Outcome.found`.
* Properties of what happens during a run are stated on two copies of the search
  loop that keep a record: `bfsTrace` records the forms that are expanded or
  reported, `bfsHist` the queue and the visited set after every pop and push.
  `bfsTrace_fst` and `bfsHist_fst` show that both have the outcome of `bfs`.
-/

namespace Compiler

/-- One byte of a `std::string`. -/
abbrev Byte := Fin 256

/-- A `std::string`: a finite sequence of bytes. -/
abbrev Str := List Byte

/-- A sentential form, `vector<string>`. -/
abbrev Form := List Str

/-- The struct `Production`: left-hand side and right-hand side (empty = epsilon). -/
structure Production where
  lhs : List Str
  rhs : List Str
deriving DecidableEq

/-! ## Tokenizer -/

/-- The conversion `(int)n` of a `size_t` value `n`, as in `(int)s.size()`: the value
modulo `2^32`, taken in the range of a 32-bit signed integer. -/
def toInt32 (n : Nat) : Int :=
  (((n + 2147483648) % 4294967296 : Nat) : Int) - 2147483648

/-- The two `for` loops computing `maxLen` from the `int` sizes of the symbols,
followed by the fallback `if (maxLen <= 0) maxLen = L`. -/
def maxTokenLen (terminals nonterminals : List Str) (L : Int) : Int :=
  let m₁ := terminals.foldl (fun m x => max m (toInt32 x.length)) 0
  let m₂ := nonterminals.foldl (fun m x => max m (toInt32 x.length)) m₁
  if m₂ ≤ 0 then L else m₂

/-- The loop `for (len = upper; len >= 1; --len)` at scan position `i`: the first
`s.substr(i, len)` found in one of the sets, or the empty string. -/
def findBest (s : Str) (terminals nonterminals : List Str) (i : Nat) : Nat → Str
  | 0 => []
  | len + 1 =>
    let sub := (s.drop i).take (len + 1)
    if sub ∈ terminals ∨ sub ∈ nonterminals then sub
    else findBest s terminals nonterminals i len

/-- What a call of `tokenize_with_sets` produces: the returned token vector, or the
fatal error (diagnostic on the unmatched remainder, then `exit(1)`). -/
inductive TokenizeResult where
  | tokens (ts : List Str)
  | tokenizationError (rem : Str)
deriving DecidableEq

/-- The loop `while (i < L)` of `tokenize_with_sets`, with the `int` variables `L`,
`maxLen`, `i` and the tokens collected so far.  The scan position is never negative, so
its conversion to the `size_t` argument of `substr` is `i.toNat`; the loop over `len`
runs `upper.toNat` times, not at all when `upper` is not positive.  A token is at most
`L - i` bytes long, so the sum in `i += (int)best.size()` stays within `int`.  `none`
means the fuel ran out. -/
def tokenizeLoop (s : Str) (terminals nonterminals : List Str) (L maxLen : Int) :
    Nat → Int → List Str → Option TokenizeResult
  | 0, i, tokens => if i < L then none else some (.tokens tokens)
  | fuel + 1, i, tokens =>
    if i < L then
      let upper := min (L - i) maxLen
      let best := findBest s terminals nonterminals i.toNat upper.toNat
      if best.isEmpty then some (.tokenizationError (s.drop i.toNat))
      else
        tokenizeLoop s terminals nonterminals L maxLen fuel (i + toInt32 best.length)
          (tokens ++ [best])
    else some (.tokens tokens)

/-- The function `tokenize_with_sets`, with `int L = (int)s.size()`.  The fuel
`s.length` is at least `L`; `none` would mean that the loop ran out of it, which
`tokenizeLoop_fuel` and `tokenize_with_sets_total` exclude. -/
def tokenize_with_sets (s : Str) (terminals nonterminals : List Str) :
    Option TokenizeResult :=
  tokenizeLoop s terminals nonterminals (toInt32 s.length)
    (maxTokenLen terminals nonterminals (toInt32 s.length)) s.length 0 []

/-- The token the scan takes at position `i`: the result of the loop over `len` with
the bound `upper` computed at `i`. -/
def bestAt (s : Str) (terminals nonterminals : List Str) (i : Nat) : Str :=
  findBest s terminals nonterminals i
    (min (toInt32 s.length - (i : Int))
      (maxTokenLen terminals nonterminals (toInt32 s.length))).toNat

/-- The string `x` is a known symbol: a terminal or a nonterminal. -/
def Known (terminals nonterminals : List Str) (x : Str) : Prop :=
  x ∈ terminals ∨ x ∈ nonterminals

instance (terminals nonterminals : List Str) (x : Str) :
    Decidable (Known terminals nonterminals x) :=
  inferInstanceAs (Decidable (x ∈ terminals ∨ x ∈ nonterminals))

/-- The token `t` is a longest known symbol that is a prefix of the text `rem`. -/
def LongestKnownPrefix (terminals nonterminals : List Str) (rem t : Str) : Prop :=
  Known terminals nonterminals t ∧ t <+: rem
    ∧ ∀ x, Known terminals nonterminals x → x <+: rem → x.length ≤ t.length

/-- Every token of the sequence is non-empty and a longest known prefix of the text
that starts with it, the concatenation of the token and of all tokens after it. -/
def Greedy (terminals nonterminals : List Str) : List Str → Prop
  | [] => True
  | t :: rest =>
    t ≠ [] ∧ LongestKnownPrefix terminals nonterminals (t ++ rest.flatten) t
      ∧ Greedy terminals nonterminals rest

/-- The tokens the left-to-right greedy scan matches from the start of `text`: each one
is non-empty and a longest known prefix of the text that is left at its start. -/
def GreedyScan (terminals nonterminals : List Str) : Str → List Str → Prop
  | _, [] => True
  | text, t :: rest =>
    t ≠ [] ∧ LongestKnownPrefix terminals nonterminals text t
      ∧ GreedyScan terminals nonterminals (text.drop t.length) rest

/-! ## Derivation search -/

/-- The lambda `encodeForm`: every symbol preceded by the separator byte `0x1F`. -/
def encodeForm (frm : Form) : Str :=
  frm.foldl (fun key tk => key ++ [0x1F] ++ tk) []

/-- The lambda `isAllTerminals`. -/
def isAllTerminals (terminals : List Str) (frm : Form) : Bool :=
  frm.all (fun tk => decide (tk ∈ terminals))

/-- The lambda `totalTerminalBytes`. -/
def totalTerminalBytes (terminals : List Str) (frm : Form) : Nat :=
  frm.foldl (fun s tk => if tk ∈ terminals then s + tk.length else s) 0

/-- The lambda `concatTerminals`. -/
def concatTerminals (frm : Form) : Str :=
  frm.foldl (fun s tk => s ++ tk) []

/-- The constant `MAX_VISITED`. -/
def MAX_VISITED : Nat := 2000000

/-- The `match` flag computed by the loop over `j`: `cur[pos + j] == prod.lhs[j]`
for every `j < M`. -/
def lhsMatches (cur : Form) (lhs : List Str) (pos : Nat) : Bool :=
  (List.range lhs.length).all (fun j => cur[pos + j]? == lhs[j]?)

/-- The three loops building `next`: `cur[0 .. pos)`, then `prod.rhs`, then
`cur[pos + M .. L)`. -/
def buildNext (cur : Form) (prod : Production) (pos : Nat) : Form :=
  (List.range pos).filterMap (fun i => cur[i]?)
    ++ prod.rhs
    ++ (List.range' (pos + prod.lhs.length) (cur.length - (pos + prod.lhs.length))).filterMap
        (fun i => cur[i]?)

/-- The queue and the visited set of `checkWord`. -/
structure SearchState where
  queue : List Form
  visited : List Str

/-- How a run of `checkWord` ends: `return true`, the queue running empty, or the
state cap with its diagnostic. -/
inductive Outcome where
  | found
  | exhausted
  | limitReached
deriving DecidableEq

/-- The body of the loop over `pos` for one production and one position.  `none`
is the `return false` of the state cap. -/
def tryPos (word : Str) (terminals : List Str) (cur : Form) (prod : Production)
    (st : SearchState) (pos : Nat) : Option SearchState :=
  if lhsMatches cur prod.lhs pos then
    let next := buildNext cur prod pos
    if totalTerminalBytes terminals next > word.length then some st
    else
      let key := encodeForm next
      let st' : SearchState :=
        if key ∈ st.visited then st
        else { queue := st.queue ++ [next], visited := key :: st.visited }
      if st'.visited.length > MAX_VISITED then none else some st'
  else some st

/-- The loop `for (pos = 0; pos + M <= L; ++pos)` over a list of positions. -/
def tryPositions (word : Str) (terminals : List Str) (cur : Form) (prod : Production) :
    List Nat → SearchState → Option SearchState
  | [], st => some st
  | pos :: rest, st =>
    match tryPos word terminals cur prod st pos with
    | none => none
    | some st' => tryPositions word terminals cur prod rest st'

/-- The positions visited by `for (pos = 0; pos + M <= L; ++pos)`. -/
def positions (cur : Form) (prod : Production) : List Nat :=
  List.range (cur.length + 1 - prod.lhs.length)

/-- The loop `for (auto &prod : productions)` applied to the popped form `cur`. -/
def expand (word : Str) (terminals : List Str) (cur : Form) :
    List Production → SearchState → Option SearchState
  | [], st => some st
  | prod :: rest, st =>
    match tryPositions word terminals cur prod (positions cur prod) st with
    | none => none
    | some st' => expand word terminals cur rest st'

/-- The loop `while (!q.empty())`.  `none` means the fuel ran out. -/
def bfs (word : Str) (terminals : List Str) (productions : List Production) :
    Nat → SearchState → Option Outcome
  | 0, _ => none
  | fuel + 1, st =>
    match st.queue with
    | [] => some .exhausted
    | cur :: rest =>
      if totalTerminalBytes terminals cur > word.length then
        bfs word terminals productions fuel { st with queue := rest }
      else if isAllTerminals terminals cur then
        if concatTerminals cur = word then some .found
        else bfs word terminals productions fuel { st with queue := rest }
      else
        match expand word terminals cur productions { st with queue := rest } with
        | none => some .limitReached
        | some st' => bfs word terminals productions fuel st'

/-- The state before the first iteration: `q.push(startForm)` and
`visited.insert(encodeForm(startForm))`. -/
def initState (start : Str) : SearchState :=
  { queue := [[start]], visited := [encodeForm [start]] }

/-- The run of `checkWord` with its diagnostic.  The parameter `nonterminals` is
not read by the function. -/
def searchOutcome (word : Str) (terminals _nonterminals : List Str)
    (productions : List Production) (start : Str) : Option Outcome :=
  bfs word terminals productions (MAX_VISITED + 1) (initState start)

/-- The function `checkWord`. -/
def checkWord (word : Str) (terminals nonterminals : List Str)
    (productions : List Production) (start : Str) : Bool :=
  searchOutcome word terminals nonterminals productions start == some .found

/-! ## The search with a record of what it does to the popped forms -/

/-- What an iteration of the loop does with the popped form when it does not discard
it: it applies the productions to it, or it reports it as the match. -/
inductive Event where
  | expanded (f : Form)
  | reported (f : Form)
deriving DecidableEq

/-- The form an event is about. -/
def Event.form : Event → Form
  | .expanded f => f
  | .reported f => f

/-- The loop `while (!q.empty())` as in `bfs`, which in addition appends to `log` every
form that reaches the loop over the productions and the form for which it returns
`true`. -/
def bfsTrace (word : Str) (terminals : List Str) (productions : List Production) :
    Nat → SearchState → List Event → Option (Outcome × List Event)
  | 0, _, _ => none
  | fuel + 1, st, log =>
    match st.queue with
    | [] => some (.exhausted, log)
    | cur :: rest =>
      if totalTerminalBytes terminals cur > word.length then
        bfsTrace word terminals productions fuel { st with queue := rest } log
      else if isAllTerminals terminals cur then
        if concatTerminals cur = word then some (.found, log ++ [.reported cur])
        else bfsTrace word terminals productions fuel { st with queue := rest } log
      else
        match expand word terminals cur productions { st with queue := rest } with
        | none => some (.limitReached, log ++ [.expanded cur])
        | some st' => bfsTrace word terminals productions fuel st' (log ++ [.expanded cur])

/-- The run of `checkWord` together with its record of expanded and reported forms. -/
def searchTrace (word : Str) (terminals _nonterminals : List Str)
    (productions : List Production) (start : Str) : Option (Outcome × List Event) :=
  bfsTrace word terminals productions (MAX_VISITED + 1) (initState start) []

/-! ## The search with a record of its queue and visited set -/

deriving instance DecidableEq for SearchState

/-- The queue and the visited set right after a step of the run that changes them,
with the form the step pushed: `none` for `q.pop()`, `some next` for `q.push(next)`
together with its `visited.insert(key)`. -/
structure Snapshot where
  pushed : Option Form
  state : SearchState
deriving DecidableEq

/-- The body of the loop over `pos` as in `tryPos`, which in addition appends a snapshot
to `hist` when it pushes `next`.  The first component is the result of `tryPos`. -/
def tryPosHist (word : Str) (terminals : List Str) (cur : Form) (prod : Production)
    (st : SearchState) (hist : List Snapshot) (pos : Nat) :
    Option SearchState × List Snapshot :=
  if lhsMatches cur prod.lhs pos then
    let next := buildNext cur prod pos
    if totalTerminalBytes terminals next > word.length then (some st, hist)
    else
      let key := encodeForm next
      if key ∈ st.visited then
        (if st.visited.length > MAX_VISITED then none else some st, hist)
      else
        let st' : SearchState := { queue := st.queue ++ [next], visited := key :: st.visited }
        (if st'.visited.length > MAX_VISITED then none else some st',
          hist ++ [⟨some next, st'⟩])
  else (some st, hist)

/-- The loop over `pos` as in `tryPositions`, with the record. -/
def tryPositionsHist (word : Str) (terminals : List Str) (cur : Form) (prod : Production) :
    List Nat → SearchState → List Snapshot → Option SearchState × List Snapshot
  | [], st, hist => (some st, hist)
  | pos :: rest, st, hist =>
    match tryPosHist word terminals cur prod st hist pos with
    | (none, hist') => (none, hist')
    | (some st', hist') => tryPositionsHist word terminals cur prod rest st' hist'

/-- The loop over the productions as in `expand`, with the record. -/
def expandHist (word : Str) (terminals : List Str) (cur : Form) :
    List Production → SearchState → List Snapshot → Option SearchState × List Snapshot
  | [], st, hist => (some st, hist)
  | prod :: rest, st, hist =>
    match tryPositionsHist word terminals cur prod (positions cur prod) st hist with
    | (none, hist') => (none, hist')
    | (some st', hist') => expandHist word terminals cur rest st' hist'

/-- The loop `while (!q.empty())` as in `bfs`, which in addition appends a snapshot to
`hist` after every `q.pop()` and every `q.push(next)`. -/
def bfsHist (word : Str) (terminals : List Str) (productions : List Production) :
    Nat → SearchState → List Snapshot → Option (Outcome × List Snapshot)
  | 0, _, _ => none
  | fuel + 1, st, hist =>
    match st.queue with
    | [] => some (.exhausted, hist)
    | cur :: rest =>
      let st1 : SearchState := { st with queue := rest }
      let hist1 := hist ++ [⟨none, st1⟩]
      if totalTerminalBytes terminals cur > word.length then
        bfsHist word terminals productions fuel st1 hist1
      else if isAllTerminals terminals cur then
        if concatTerminals cur = word then some (.found, hist1)
        else bfsHist word terminals productions fuel st1 hist1
      else
        match expandHist word terminals cur productions st1 hist1 with
        | (none, hist') => some (.limitReached, hist')
        | (some st', hist') => bfsHist word terminals productions fuel st' hist'

/-- The run of `checkWord` with the record of its queue and visited set; the record
starts with the snapshot after `q.push(startForm)` and the first `visited.insert`. -/
def searchHistory (word : Str) (terminals _nonterminals : List Str)
    (productions : List Production) (start : Str) : Option (Outcome × List Snapshot) :=
  bfsHist word terminals productions (MAX_VISITED + 1) (initState start)
    [⟨some [start], initState start⟩]

/-- The forms pushed onto the queue, in the order of the pushes. -/
def pushedForms (hist : List Snapshot) : List Form :=
  hist.filterMap Snapshot.pushed

/-- Scenario of the state cap: the single production `S -> S S`. -/
def doublingProductions : List Production :=
  [⟨[[83]], [[83], [83]]⟩]

/-! ## The rewrite relation of the grammar -/

/-- One rule application: one contiguous occurrence of the left-hand side of a
production is replaced by its right-hand side. -/
def Step (productions : List Production) (f g : Form) : Prop :=
  ∃ p ∈ productions, ∃ u v : Form, f = u ++ p.lhs ++ v ∧ g = u ++ p.rhs ++ v

/-- A finite chain of rule applications. -/
def Derives (productions : List Production) : Form → Form → Prop :=
  Relation.ReflTransGen (Step productions)

/-- The target is derivable: some chain of rule applications leads from `[start]` to
a form of terminals only whose concatenated spelling is the target. -/
def Derivable (word : Str) (terminals : List Str) (productions : List Production)
    (start : Str) : Prop :=
  ∃ f : Form, Derives productions [start] f ∧ (∀ tk ∈ f, tk ∈ terminals) ∧ f.flatten = word

/-- The queue and visited set `st2` arise from `st1` by enqueueing successors of `cur`
that are within the length budget and whose keys were not yet visited. -/
def Extends (word : Str) (terminals : List Str) (productions : List Production) (cur : Form)
    (st1 st2 : SearchState) : Prop :=
  ∃ news : List Form,
    st2.queue = st1.queue ++ news ∧
    st2.visited = (news.map encodeForm).reverse ++ st1.visited ∧
    (∀ n ∈ news, Step productions cur n ∧ totalTerminalBytes terminals n ≤ word.length) ∧
    (news.map encodeForm).Nodup ∧ (∀ n ∈ news, encodeForm n ∉ st1.visited)

/-- No symbol of the form contains the separator byte `0x1F`. -/
def SeparatorFreeForm (f : Form) : Prop := ∀ tk ∈ f, (0x1F : Byte) ∉ tk

instance (f : Form) : Decidable (SeparatorFreeForm f) :=
  inferInstanceAs (Decidable (∀ tk ∈ f, (0x1F : Byte) ∉ tk))

/-- The symbols the search builds its forms from, the start symbol and the symbols of
the right-hand sides, do not contain the separator byte `0x1F`. -/
def SeparatorFree (productions : List Production) (start : Str) : Prop :=
  (0x1F : Byte) ∉ start ∧ ∀ p ∈ productions, SeparatorFreeForm p.rhs

instance (productions : List Production) (start : Str) :
    Decidable (SeparatorFree productions start) :=
  inferInstanceAs (Decidable ((0x1F : Byte) ∉ start ∧ ∀ p ∈ productions, SeparatorFreeForm p.rhs))

/-- A rule application the search can follow: both forms are within the length budget
of the target and the rewritten form is not made of terminals only. -/
def SearchStep (word : Str) (terminals : List Str) (productions : List Production)
    (f g : Form) : Prop :=
  Step productions f g ∧ totalTerminalBytes terminals f ≤ word.length
    ∧ (∃ tk ∈ f, tk ∉ terminals) ∧ totalTerminalBytes terminals g ≤ word.length

/-- The target is derivable by a chain the search can follow: every form of the chain
has terminal byte-length at most that of the target, every form but the last has a
symbol that is not a terminal, and the last one consists of terminals spelling the
target. -/
def SearchDerivable (word : Str) (terminals : List Str) (productions : List Production)
    (start : Str) : Prop :=
  ∃ f : Form, Relation.ReflTransGen (SearchStep word terminals productions) [start] f
    ∧ (∀ tk ∈ f, tk ∈ terminals) ∧ f.flatten = word

/-- The form `f` is settled with respect to the visited set `vis`: if it is within the
length budget then it is not a match, and if it also has a non-terminal symbol then
all its successors within the budget are visited. -/
def Settled (word : Str) (terminals : List Str) (productions : List Production)
    (vis : List Str) (f : Form) : Prop :=
  totalTerminalBytes terminals f ≤ word.length →
    ((∀ tk ∈ f, tk ∈ terminals) → f.flatten ≠ word)
    ∧ ((∃ tk ∈ f, tk ∉ terminals) → ∀ g, Step productions f g →
        totalTerminalBytes terminals g ≤ word.length → encodeForm g ∈ vis)

/-! ## The two end-to-end grammars -/

/-- Scenario 1: the productions `S -> a S b` and `S -> e` (empty right-hand side). -/
def anbnProductions : List Production :=
  [⟨[[83]], [[97], [83], [98]]⟩, ⟨[[83]], []⟩]

/-- Scenario 2: the single production `S -> a S`. -/
def loopProductions : List Production :=
  [⟨[[83]], [[97], [83]]⟩]

/-- The sentential form `a^k S b^k`. -/
def midForm (k : Nat) : Form :=
  List.replicate k [97] ++ [[83]] ++ List.replicate k [98]

/-- The sentential form `a^k b^k`. -/
def endForm (k : Nat) : Form :=
  List.replicate k [97] ++ List.replicate k [98]

/-- The forms of scenario 1 within the length budget of `word`. -/
def AnbnForm (word : Str) (f : Form) : Prop :=
  ∃ k, (f = midForm k ∨ f = endForm k) ∧ 2 * k ≤ word.length

/-- The forms of scenario 2: `a^k S`. -/
def LoopForm (f : Form) : Prop :=
  ∃ k, f = List.replicate k [97] ++ [[83]]

/-! ## Basic facts about the helper lambdas -/

theorem encodeForm_foldl (frm : Form) (init : Str) :
    frm.foldl (fun key tk => key ++ [0x1F] ++ tk) init
      = init ++ (frm.map (fun tk => (0x1F : Byte) :: tk)).flatten := by
  induction frm generalizing init with
  | nil => simp
  | cons tk rest ih =>
    rw [List.foldl_cons, ih]
    simp

theorem encodeForm_eq (frm : Form) :
    encodeForm frm = (frm.map (fun tk => (0x1F : Byte) :: tk)).flatten := by
  unfold encodeForm
  rw [encodeForm_foldl]
  simp

theorem concatTerminals_foldl (frm : Form) (init : Str) :
    frm.foldl (fun s tk => s ++ tk) init = init ++ frm.flatten := by
  induction frm generalizing init with
  | nil => simp
  | cons tk rest ih => simp [ih]

theorem concatTerminals_eq (frm : Form) : concatTerminals frm = frm.flatten := by
  simp [concatTerminals, concatTerminals_foldl]

theorem totalTerminalBytes_foldl (terminals : List Str) (frm : Form) (init : Nat) :
    frm.foldl (fun s tk => if tk ∈ terminals then s + tk.length else s) init
      = init + (frm.map (fun tk => if tk ∈ terminals then tk.length else 0)).sum := by
  induction frm generalizing init with
  | nil => simp
  | cons tk rest ih =>
    simp only [List.foldl_cons, List.map_cons, List.sum_cons, ih]
    split <;> omega

theorem totalTerminalBytes_eq (terminals : List Str) (frm : Form) :
    totalTerminalBytes terminals frm
      = (frm.map (fun tk => if tk ∈ terminals then tk.length else 0)).sum := by
  simp [totalTerminalBytes, totalTerminalBytes_foldl]

theorem totalTerminalBytes_append (terminals : List Str) (f g : Form) :
    totalTerminalBytes terminals (f ++ g)
      = totalTerminalBytes terminals f + totalTerminalBytes terminals g := by
  simp [totalTerminalBytes_eq]

theorem totalTerminalBytes_nil (terminals : List Str) :
    totalTerminalBytes terminals [] = 0 := rfl

theorem isAllTerminals_iff (terminals : List Str) (frm : Form) :
    isAllTerminals terminals frm = true ↔ ∀ tk ∈ frm, tk ∈ terminals := by
  simp [isAllTerminals]

theorem totalTerminalBytes_of_allTerminals (terminals : List Str) (frm : Form)
    (h : ∀ tk ∈ frm, tk ∈ terminals) :
    totalTerminalBytes terminals frm = frm.flatten.length := by
  induction frm with
  | nil => rfl
  | cons tk rest ih =>
    have h1 : tk ∈ terminals := h tk (by simp)
    have h2 := ih (fun x hx => h x (by simp [hx]))
    rw [totalTerminalBytes_eq] at h2 ⊢
    simp [h1, h2]

theorem filterMap_range_getElem? (cur : Form) (n : Nat) :
    (List.range n).filterMap (fun i => cur[i]?) = cur.take n := by
  induction n with
  | zero => simp
  | succ n ih =>
    rw [List.range_succ, List.filterMap_append, ih, List.take_succ]
    cases h : cur[n]? <;> simp [h]

theorem filterMap_range'_getElem? (cur : Form) (a n : Nat) (h : a + n = cur.length) :
    (List.range' a n).filterMap (fun i => cur[i]?) = cur.drop a := by
  induction n generalizing a with
  | zero =>
    have : cur.length ≤ a := by omega
    simp [List.drop_eq_nil_of_le this]
  | succ n ih =>
    have ha : a < cur.length := by omega
    rw [List.range'_succ, List.filterMap_cons, List.getElem?_eq_getElem ha]
    simp only []
    rw [ih (a + 1) (by omega), List.drop_eq_getElem_cons ha]

theorem buildNext_eq (cur : Form) (prod : Production) (pos : Nat) :
    buildNext cur prod pos
      = cur.take pos ++ prod.rhs ++ cur.drop (pos + prod.lhs.length) := by
  unfold buildNext
  rw [filterMap_range_getElem?]
  by_cases h : pos + prod.lhs.length ≤ cur.length
  · rw [filterMap_range'_getElem? cur _ _ (by omega)]
  · have h1 : cur.length - (pos + prod.lhs.length) = 0 := by omega
    have h2 : cur.length ≤ pos + prod.lhs.length := by omega
    simp [h1, List.drop_eq_nil_of_le h2]

theorem lhsMatches_iff (cur : Form) (lhs : List Str) (pos : Nat) :
    lhsMatches cur lhs pos = true ↔ (cur.drop pos).take lhs.length = lhs := by
  unfold lhsMatches
  rw [List.all_eq_true]
  constructor
  · intro hall
    apply List.ext_getElem?
    intro j
    rw [List.getElem?_take]
    by_cases hj : j < lhs.length
    · have := hall j (List.mem_range.mpr hj)
      simp only [beq_iff_eq] at this
      simp [hj, List.getElem?_drop, this]
    · simp [hj, List.getElem?_eq_none (Nat.le_of_not_lt hj)]
  · intro heq j hj
    have hj' := List.mem_range.mp hj
    simp only [beq_iff_eq]
    conv_rhs => rw [← heq]
    simp [List.getElem?_take, hj', List.getElem?_drop]

/-- A match at `pos` splits the form around the left-hand side. -/
theorem lhsMatches_split (cur : Form) (lhs : List Str) (pos : Nat)
    (hm : lhsMatches cur lhs pos = true) :
    cur = cur.take pos ++ lhs ++ cur.drop (pos + lhs.length) := by
  have h1 := (lhsMatches_iff cur lhs pos).mp hm
  have h2 : cur.drop pos = lhs ++ cur.drop (pos + lhs.length) := by
    conv_lhs => rw [← List.take_append_drop lhs.length (cur.drop pos)]
    rw [h1, List.drop_drop, Nat.add_comm]
  conv_lhs => rw [← List.take_append_drop pos cur, h2]
  simp

/-- Every contiguous occurrence of the left-hand side is found at some position. -/
theorem lhsMatches_of_split (u v lhs : List Str) :
    u.length + lhs.length ≤ (u ++ lhs ++ v).length ∧
      lhsMatches (u ++ lhs ++ v) lhs u.length = true := by
  have hlen : u.length + lhs.length ≤ (u ++ lhs ++ v).length := by simp
  refine ⟨hlen, (lhsMatches_iff _ _ _).mpr ?_⟩
  simp

/-! ## The key of a form -/

theorem encodeForm_nil : encodeForm [] = [] := rfl

theorem encodeForm_cons (tk : Str) (rest : Form) :
    encodeForm (tk :: rest) = (0x1F : Byte) :: (tk ++ encodeForm rest) := by
  simp [encodeForm_eq]

theorem encodeForm_head (f : Form) (c : Byte) (h : (encodeForm f).head? = some c) :
    c = 0x1F := by
  cases f with
  | nil => simp [encodeForm_nil] at h
  | cons tk rest =>
    rw [encodeForm_cons] at h
    simpa using h.symm

/-- Two separator-free strings followed by keys agree only if they are equal. -/
theorem append_key_cancel (a b x y : Str) (ha : (0x1F : Byte) ∉ a) (hb : (0x1F : Byte) ∉ b)
    (hx : ∀ c, x.head? = some c → c = 0x1F) (hy : ∀ c, y.head? = some c → c = 0x1F)
    (h : a ++ x = b ++ y) : a = b ∧ x = y := by
  induction a generalizing b with
  | nil =>
    cases b with
    | nil => exact ⟨rfl, by simpa using h⟩
    | cons d b2 =>
      exfalso
      simp only [List.nil_append] at h
      have := hx d (by rw [h]; rfl)
      exact hb (by simp [this])
  | cons c a2 ih =>
    cases b with
    | nil =>
      exfalso
      simp only [List.nil_append] at h
      have := hy c (by rw [← h]; rfl)
      exact ha (by simp [this])
    | cons d b2 =>
      simp only [List.cons_append, List.cons.injEq] at h
      obtain ⟨hcd, hrest⟩ := h
      have ha2 : (0x1F : Byte) ∉ a2 := fun hmem => ha (List.mem_cons_of_mem _ hmem)
      have hb2 : (0x1F : Byte) ∉ b2 := fun hmem => hb (List.mem_cons_of_mem _ hmem)
      obtain ⟨h1, h2⟩ := ih b2 ha2 hb2 hrest
      exact ⟨by rw [hcd, h1], h2⟩

/-- On separator-free forms the key determines the form. -/
theorem encodeForm_injective (f g : Form) (hf : SeparatorFreeForm f)
    (hg : SeparatorFreeForm g) (h : encodeForm f = encodeForm g) : f = g := by
  induction f generalizing g with
  | nil =>
    cases g with
    | nil => rfl
    | cons b g2 => simp [encodeForm_nil, encodeForm_cons] at h
  | cons a f2 ih =>
    cases g with
    | nil => simp [encodeForm_nil, encodeForm_cons] at h
    | cons b g2 =>
      rw [encodeForm_cons, encodeForm_cons, List.cons.injEq] at h
      obtain ⟨hab, hrest⟩ := append_key_cancel a b _ _ (hf a (by simp)) (hg b (by simp))
        (encodeForm_head f2) (encodeForm_head g2) h.2
      rw [hab, ih g2 (fun tk htk => hf tk (by simp [htk]))
        (fun tk htk => hg tk (by simp [htk])) hrest]

theorem separatorFreeForm_step {productions : List Production} {f g : Form}
    (hsep : ∀ p ∈ productions, SeparatorFreeForm p.rhs) (hf : SeparatorFreeForm f)
    (h : Step productions f g) : SeparatorFreeForm g := by
  obtain ⟨p, hp, u, v, rfl, rfl⟩ := h
  intro tk htk
  simp only [List.mem_append] at htk
  rcases htk with (h1 | h1) | h1
  · exact hf tk (by simp [h1])
  · exact hsep p hp tk h1
  · exact hf tk (by simp [h1])

/-! ## One expansion of a popped form -/

section Expansion

variable (word : Str) (terminals : List Str) (productions : List Production) (cur : Form)

theorem Extends.refl (st : SearchState) : Extends word terminals productions cur st st :=
  ⟨[], by simp, by simp, by simp, by simp, by simp⟩

theorem Extends.trans {st1 st2 st3 : SearchState}
    (h12 : Extends word terminals productions cur st1 st2)
    (h23 : Extends word terminals productions cur st2 st3) :
    Extends word terminals productions cur st1 st3 := by
  obtain ⟨n1, hq1, hv1, hs1, hn1, hd1⟩ := h12
  obtain ⟨n2, hq2, hv2, hs2, hn2, hd2⟩ := h23
  refine ⟨n1 ++ n2, by simp [hq2, hq1], by simp [hv2, hv1], ?_, ?_, ?_⟩
  · intro n hn
    rcases List.mem_append.mp hn with h | h
    · exact hs1 n h
    · exact hs2 n h
  · rw [List.map_append, List.nodup_append]
    refine ⟨hn1, hn2, ?_⟩
    intro k hk1 hk2
    obtain ⟨n, hn, rfl⟩ := List.mem_map.mp hk2
    exact hd2 n hn (by rw [hv1]; simp [hk1])
  · intro n hn
    rcases List.mem_append.mp hn with h | h
    · exact hd1 n h
    · intro hmem
      exact hd2 n h (by rw [hv1]; simp [hmem])

theorem Extends.visited_subset {st1 st2 : SearchState}
    (h : Extends word terminals productions cur st1 st2) :
    ∀ k ∈ st1.visited, k ∈ st2.visited := by
  obtain ⟨n, _, hv, _⟩ := h
  intro k hk
  rw [hv]
  simp [hk]

theorem Extends.length_eq {st1 st2 : SearchState}
    (h : Extends word terminals productions cur st1 st2) :
    st2.queue.length + st1.visited.length = st1.queue.length + st2.visited.length := by
  obtain ⟨n, hq, hv, _⟩ := h
  rw [hq, hv]
  simp
  omega

/-- A match of the left-hand side at `pos` is a rule application from `cur` to the
form built by `buildNext`. -/
theorem step_of_lhsMatches (prod : Production) (hp : prod ∈ productions) (pos : Nat)
    (hm : lhsMatches cur prod.lhs pos = true) :
    Step productions cur (buildNext cur prod pos) :=
  ⟨prod, hp, cur.take pos, cur.drop (pos + prod.lhs.length),
    lhsMatches_split cur prod.lhs pos hm, buildNext_eq cur prod pos⟩

theorem tryPos_some (prod : Production) (hp : prod ∈ productions) (pos : Nat)
    (st st2 : SearchState) (h : tryPos word terminals cur prod st pos = some st2) :
    Extends word terminals productions cur st st2
      ∧ (lhsMatches cur prod.lhs pos = true →
          totalTerminalBytes terminals (buildNext cur prod pos) ≤ word.length →
          encodeForm (buildNext cur prod pos) ∈ st2.visited)
      ∧ (st.visited.length ≤ MAX_VISITED → st2.visited.length ≤ MAX_VISITED) := by
  unfold tryPos at h
  by_cases hm : lhsMatches cur prod.lhs pos = true
  · rw [if_pos hm] at h
    by_cases hb : totalTerminalBytes terminals (buildNext cur prod pos) > word.length
    · simp only [hb, if_true, Option.some.injEq] at h
      subst h
      exact ⟨Extends.refl _ _ _ _ _, fun _ h2 => absurd hb (by omega), fun h => h⟩
    · simp only [hb, if_false] at h
      by_cases hk : encodeForm (buildNext cur prod pos) ∈ st.visited
      · simp only [hk, if_true] at h
        split at h
        · exact absurd h (by simp)
        · simp only [Option.some.injEq] at h
          subst h
          exact ⟨Extends.refl _ _ _ _ _, fun _ _ => hk, fun h => h⟩
      · simp only [hk, if_false] at h
        split at h
        · exact absurd h (by simp)
        · rename_i hlen
          simp only [Option.some.injEq] at h
          subst h
          refine ⟨⟨[buildNext cur prod pos], by simp, by simp, ?_, by simp, ?_⟩,
            fun _ _ => by simp, fun _ => by simpa using hlen⟩
          · intro n hn
            rw [List.mem_singleton] at hn
            subst hn
            exact ⟨step_of_lhsMatches productions cur prod hp pos hm, by omega⟩
          · intro n hn
            rw [List.mem_singleton] at hn
            subst hn
            exact hk
  · rw [if_neg hm] at h
    simp only [Option.some.injEq] at h
    subst h
    exact ⟨Extends.refl _ _ _ _ _, fun h1 => absurd h1 hm, fun h => h⟩

theorem tryPos_none (prod : Production) (hp : prod ∈ productions) (pos : Nat)
    (st : SearchState) (h : tryPos word terminals cur prod st pos = none) :
    ∃ st2, Extends word terminals productions cur st st2 ∧ st2.visited.length > MAX_VISITED := by
  unfold tryPos at h
  by_cases hm : lhsMatches cur prod.lhs pos = true
  · rw [if_pos hm] at h
    by_cases hb : totalTerminalBytes terminals (buildNext cur prod pos) > word.length
    · simp [hb] at h
    · simp only [hb, if_false] at h
      by_cases hk : encodeForm (buildNext cur prod pos) ∈ st.visited
      · simp only [hk, if_true] at h
        split at h
        · rename_i hlen
          exact ⟨st, Extends.refl _ _ _ _ _, hlen⟩
        · exact absurd h (by simp)
      · simp only [hk, if_false] at h
        split at h
        · rename_i hlen
          refine ⟨⟨st.queue ++ [buildNext cur prod pos],
            encodeForm (buildNext cur prod pos) :: st.visited⟩,
            ⟨[buildNext cur prod pos], rfl, by simp, ?_, by simp, ?_⟩, hlen⟩
          · intro n hn
            rw [List.mem_singleton] at hn
            subst hn
            exact ⟨step_of_lhsMatches productions cur prod hp pos hm, by omega⟩
          · intro n hn
            rw [List.mem_singleton] at hn
            subst hn
            exact hk
        · exact absurd h (by simp)
  · simp [hm] at h

theorem tryPositions_some (prod : Production) (hp : prod ∈ productions) (ps : List Nat)
    (st st2 : SearchState) (h : tryPositions word terminals cur prod ps st = some st2) :
    Extends word terminals productions cur st st2
      ∧ (∀ pos ∈ ps, lhsMatches cur prod.lhs pos = true →
          totalTerminalBytes terminals (buildNext cur prod pos) ≤ word.length →
          encodeForm (buildNext cur prod pos) ∈ st2.visited)
      ∧ (st.visited.length ≤ MAX_VISITED → st2.visited.length ≤ MAX_VISITED) := by
  induction ps generalizing st with
  | nil =>
    simp only [tryPositions, Option.some.injEq] at h
    subst h
    exact ⟨Extends.refl _ _ _ _ _, by simp, fun h => h⟩
  | cons pos rest ih =>
    unfold tryPositions at h
    cases h1 : tryPos word terminals cur prod st pos with
    | none => simp [h1] at h
    | some st1 =>
      simp only [h1] at h
      obtain ⟨e1, c1, l1⟩ := tryPos_some word terminals productions cur prod hp pos st st1 h1
      obtain ⟨e2, c2, l2⟩ := ih st1 h
      refine ⟨e1.trans _ _ _ _ e2, ?_, fun h => l2 (l1 h)⟩
      intro q hq hm hb
      rcases List.mem_cons.mp hq with rfl | hq
      · exact e2.visited_subset _ _ _ _ _ (c1 hm hb)
      · exact c2 q hq hm hb

theorem tryPositions_none (prod : Production) (hp : prod ∈ productions) (ps : List Nat)
    (st : SearchState) (h : tryPositions word terminals cur prod ps st = none) :
    ∃ st2, Extends word terminals productions cur st st2 ∧ st2.visited.length > MAX_VISITED := by
  induction ps generalizing st with
  | nil => simp [tryPositions] at h
  | cons pos rest ih =>
    unfold tryPositions at h
    cases h1 : tryPos word terminals cur prod st pos with
    | none => exact tryPos_none word terminals productions cur prod hp pos st h1
    | some st1 =>
      simp only [h1] at h
      obtain ⟨e1, _, _⟩ := tryPos_some word terminals productions cur prod hp pos st st1 h1
      obtain ⟨st2, e2, hl⟩ := ih st1 h
      exact ⟨st2, e1.trans _ _ _ _ e2, hl⟩

theorem expand_some (ps : List Production) (hps : ∀ p ∈ ps, p ∈ productions)
    (st st2 : SearchState) (h : expand word terminals cur ps st = some st2) :
    Extends word terminals productions cur st st2
      ∧ (∀ p ∈ ps, ∀ pos ∈ positions cur p, lhsMatches cur p.lhs pos = true →
          totalTerminalBytes terminals (buildNext cur p pos) ≤ word.length →
          encodeForm (buildNext cur p pos) ∈ st2.visited)
      ∧ (st.visited.length ≤ MAX_VISITED → st2.visited.length ≤ MAX_VISITED) := by
  induction ps generalizing st with
  | nil =>
    simp only [expand, Option.some.injEq] at h
    subst h
    exact ⟨Extends.refl _ _ _ _ _, by simp, fun h => h⟩
  | cons prod rest ih =>
    unfold expand at h
    have hp : prod ∈ productions := hps prod (by simp)
    cases h1 : tryPositions word terminals cur prod (positions cur prod) st with
    | none => simp [h1] at h
    | some st1 =>
      simp only [h1] at h
      obtain ⟨e1, c1, l1⟩ :=
        tryPositions_some word terminals productions cur prod hp _ st st1 h1
      obtain ⟨e2, c2, l2⟩ := ih (fun p hp => hps p (by simp [hp])) st1 h
      refine ⟨e1.trans _ _ _ _ e2, ?_, fun h => l2 (l1 h)⟩
      intro p hp pos hpos hm hb
      rcases List.mem_cons.mp hp with rfl | hp
      · exact e2.visited_subset _ _ _ _ _ (c1 pos hpos hm hb)
      · exact c2 p hp pos hpos hm hb

theorem expand_none (ps : List Production) (hps : ∀ p ∈ ps, p ∈ productions)
    (st : SearchState) (h : expand word terminals cur ps st = none) :
    ∃ st2, Extends word terminals productions cur st st2 ∧ st2.visited.length > MAX_VISITED := by
  induction ps generalizing st with
  | nil => simp [expand] at h
  | cons prod rest ih =>
    unfold expand at h
    have hp : prod ∈ productions := hps prod (by simp)
    cases h1 : tryPositions word terminals cur prod (positions cur prod) st with
    | none => exact tryPositions_none word terminals productions cur prod hp _ st h1
    | some st1 =>
      simp only [h1] at h
      obtain ⟨e1, _, _⟩ :=
        tryPositions_some word terminals productions cur prod hp _ st st1 h1
      obtain ⟨st2, e2, hl⟩ := ih (fun p hp => hps p (by simp [hp])) st1 h
      exact ⟨st2, e1.trans _ _ _ _ e2, hl⟩

/-- After a completed expansion of `cur`, every successor of `cur` within the length
budget has its key in the visited set. -/
theorem expand_complete (st st2 : SearchState)
    (h : expand word terminals cur productions st = some st2) (g : Form)
    (hstep : Step productions cur g) (hb : totalTerminalBytes terminals g ≤ word.length) :
    encodeForm g ∈ st2.visited := by
  obtain ⟨_, hc, _⟩ :=
    expand_some word terminals productions cur productions (fun _ hp => hp) st st2 h
  obtain ⟨p, hp, u, v, hcur, hg⟩ := hstep
  have hsplit := lhsMatches_of_split u v p.lhs
  rw [← hcur] at hsplit
  have hnext : buildNext cur p u.length = g := by
    rw [buildNext_eq, hg]
    conv_lhs => rw [hcur]
    simp
  have hpos : u.length ∈ positions cur p := by
    unfold positions
    rw [List.mem_range]
    omega
  have := hc p hp u.length hpos hsplit.2
  rw [hnext] at this
  exact this hb

end Expansion

/-! ## The search loop -/

section Search

variable (word : Str) (terminals : List Str) (productions : List Production)

theorem bfs_nil (fuel : Nat) (vis : List Str) :
    bfs word terminals productions (fuel + 1) ⟨[], vis⟩ = some .exhausted := rfl

theorem bfs_cons (fuel : Nat) (cur : Form) (rest : List Form) (vis : List Str) :
    bfs word terminals productions (fuel + 1) ⟨cur :: rest, vis⟩ =
      if totalTerminalBytes terminals cur > word.length then
        bfs word terminals productions fuel ⟨rest, vis⟩
      else if isAllTerminals terminals cur then
        if concatTerminals cur = word then some .found
        else bfs word terminals productions fuel ⟨rest, vis⟩
      else
        match expand word terminals cur productions ⟨rest, vis⟩ with
        | none => some .limitReached
        | some st2 => bfs word terminals productions fuel st2 := rfl

/-- The loop returns whenever the fuel exceeds the number of forms still in the queue
plus the number of keys the visited set can still take. -/
theorem bfs_some (fuel : Nat) (st : SearchState) (hv : st.visited.length ≤ MAX_VISITED)
    (hf : st.queue.length + (MAX_VISITED - st.visited.length) < fuel) :
    ∃ o, bfs word terminals productions fuel st = some o := by
  induction fuel generalizing st with
  | zero => omega
  | succ fuel ih =>
    obtain ⟨q, vis⟩ := st
    cases q with
    | nil => exact ⟨_, bfs_nil _ _ _ _ _⟩
    | cons cur rest =>
      simp only [List.length_cons] at hf hv
      have hrest := ih ⟨rest, vis⟩ hv (by simp only []; omega)
      rw [bfs_cons]
      split
      · exact hrest
      · split
        · split
          · exact ⟨_, rfl⟩
          · exact hrest
        · cases h : expand word terminals cur productions ⟨rest, vis⟩ with
          | none => exact ⟨_, rfl⟩
          | some st2 =>
            obtain ⟨e, _, hl⟩ :=
              expand_some word terminals productions cur productions (fun _ hp => hp) _ _ h
            have hlen := e.length_eq
            have hl2 := hl hv
            simp only [] at hlen
            exact ih st2 hl2 (by omega)

/-- More fuel does not change a result. -/
theorem bfs_mono (fuel : Nat) (st : SearchState) (o : Outcome)
    (h : bfs word terminals productions fuel st = some o) (k : Nat) :
    bfs word terminals productions (fuel + k) st = some o := by
  induction fuel generalizing st with
  | zero => simp [bfs] at h
  | succ fuel ih =>
    obtain ⟨q, vis⟩ := st
    have hk : fuel + 1 + k = (fuel + k) + 1 := by omega
    rw [hk]
    cases q with
    | nil =>
      rw [bfs_nil] at h ⊢
      exact h
    | cons cur rest =>
      rw [bfs_cons] at h ⊢
      split
      · rename_i h1
        rw [if_pos h1] at h
        exact ih _ h
      · rename_i h1
        rw [if_neg h1] at h
        split
        · rename_i h2
          rw [if_pos h2] at h
          split
          · rename_i h3
            rw [if_pos h3] at h
            exact h
          · rename_i h3
            rw [if_neg h3] at h
            exact ih _ h
        · rename_i h2
          rw [if_neg h2] at h
          cases h3 : expand word terminals cur productions ⟨rest, vis⟩ with
          | none =>
            rw [h3] at h
            exact h
          | some st2 =>
            rw [h3] at h
            exact ih _ h

theorem exists_nonterminal_of_not_isAllTerminals (cur : Form)
    (h : ¬ isAllTerminals terminals cur = true) : ∃ tk ∈ cur, tk ∉ terminals := by
  rw [isAllTerminals_iff] at h
  push_neg at h
  exact h

/-- A property of forms that is kept by the rule applications the search follows holds
for every form a run ever holds in its queue or records in its visited set.  The
visited set has no duplicates. -/
theorem bfs_invariant (Q : Form → Prop)
    (hQ : ∀ f g, Q f → totalTerminalBytes terminals f ≤ word.length →
      (∃ tk ∈ f, tk ∉ terminals) → Step productions f g →
      totalTerminalBytes terminals g ≤ word.length → Q g)
    (fuel : Nat) (st : SearchState) (o : Outcome)
    (hq : ∀ f ∈ st.queue, Q f)
    (hv : ∀ k ∈ st.visited, ∃ f, Q f ∧ encodeForm f = k)
    (hn : st.visited.Nodup)
    (h : bfs word terminals productions fuel st = some o) :
    (o = .found → ∃ f, Q f ∧ (∀ tk ∈ f, tk ∈ terminals) ∧ f.flatten = word)
    ∧ (o = .limitReached → ∃ vis : List Str, vis.Nodup
        ∧ (∀ k ∈ vis, ∃ f, Q f ∧ encodeForm f = k) ∧ vis.length > MAX_VISITED) := by
  induction fuel generalizing st with
  | zero => simp [bfs] at h
  | succ fuel ih =>
    obtain ⟨q, vis⟩ := st
    cases q with
    | nil =>
      rw [bfs_nil] at h
      simp only [Option.some.injEq] at h
      subst h
      exact ⟨by simp, by simp⟩
    | cons cur rest =>
      have hrest : ∀ f ∈ rest, Q f := fun f hf => hq f (by simp [hf])
      have hcur : Q cur := hq cur (by simp)
      rw [bfs_cons] at h
      by_cases h1 : totalTerminalBytes terminals cur > word.length
      · rw [if_pos h1] at h
        exact ih ⟨rest, vis⟩ hrest hv hn h
      · rw [if_neg h1] at h
        by_cases h2 : isAllTerminals terminals cur = true
        · rw [if_pos h2] at h
          by_cases h3 : concatTerminals cur = word
          · rw [if_pos h3] at h
            simp only [Option.some.injEq] at h
            subst h
            refine ⟨fun _ => ⟨cur, hcur, (isAllTerminals_iff _ _).mp h2, ?_⟩, by simp⟩
            rw [← concatTerminals_eq]
            exact h3
          · rw [if_neg h3] at h
            exact ih ⟨rest, vis⟩ hrest hv hn h
        · rw [if_neg h2] at h
          have hnt := exists_nonterminal_of_not_isAllTerminals terminals cur h2
          have key : ∀ st2 : SearchState,
              Extends word terminals productions cur ⟨rest, vis⟩ st2 →
              (∀ f ∈ st2.queue, Q f) ∧ (∀ k ∈ st2.visited, ∃ f, Q f ∧ encodeForm f = k)
                ∧ st2.visited.Nodup := by
            rintro st2 ⟨news, eq, ev, es, en, ed⟩
            have hnews : ∀ n ∈ news, Q n := fun n hn =>
              hQ cur n hcur (by omega) hnt (es n hn).1 (es n hn).2
            refine ⟨?_, ?_, ?_⟩
            · intro f hf
              rw [eq] at hf
              rcases List.mem_append.mp hf with hf | hf
              · exact hrest f hf
              · exact hnews f hf
            · intro k hk
              rw [ev] at hk
              rcases List.mem_append.mp hk with hk | hk
              · obtain ⟨n, hn, rfl⟩ := List.mem_map.mp (List.mem_reverse.mp hk)
                exact ⟨n, hnews n hn, rfl⟩
              · exact hv k hk
            · rw [ev, List.nodup_append]
              refine ⟨List.nodup_reverse.mpr en, hn, ?_⟩
              intro k hk1 hk2
              obtain ⟨n, hn, rfl⟩ := List.mem_map.mp (List.mem_reverse.mp hk1)
              exact ed n hn hk2
          cases h3 : expand word terminals cur productions ⟨rest, vis⟩ with
          | none =>
            rw [h3] at h
            simp only [Option.some.injEq] at h
            subst h
            obtain ⟨st2, e, hl⟩ :=
              expand_none word terminals productions cur productions (fun _ hp => hp) _ h3
            obtain ⟨_, k2, k3⟩ := key st2 e
            exact ⟨by simp, fun _ => ⟨st2.visited, k3, k2, hl⟩⟩
          | some st2 =>
            rw [h3] at h
            obtain ⟨e, _, _⟩ :=
              expand_some word terminals productions cur productions (fun _ hp => hp) _ _ h3
            obtain ⟨k1, k2, k3⟩ := key st2 e
            exact ih st2 k1 k2 k3 h

theorem Settled.mono {vis vis2 : List Str} {f : Form} (hsub : ∀ k ∈ vis, k ∈ vis2)
    (h : Settled word terminals productions vis f) :
    Settled word terminals productions vis2 f :=
  fun hb => ⟨(h hb).1, fun hnt g hg hgb => hsub _ ((h hb).2 hnt g hg hgb)⟩

/-- When the queue runs empty, the visited set is closed: every separator-free form
whose key is visited is settled. -/
theorem bfs_exhausted (hsep : ∀ p ∈ productions, SeparatorFreeForm p.rhs)
    (fuel : Nat) (st : SearchState)
    (hq : ∀ f ∈ st.queue, SeparatorFreeForm f)
    (hc : ∀ f, SeparatorFreeForm f → encodeForm f ∈ st.visited →
      f ∈ st.queue ∨ Settled word terminals productions st.visited f)
    (h : bfs word terminals productions fuel st = some .exhausted) :
    ∃ vis : List Str, (∀ k ∈ st.visited, k ∈ vis)
      ∧ ∀ f, SeparatorFreeForm f → encodeForm f ∈ vis →
          Settled word terminals productions vis f := by
  induction fuel generalizing st with
  | zero => simp [bfs] at h
  | succ fuel ih =>
    obtain ⟨q, vis⟩ := st
    cases q with
    | nil =>
      refine ⟨vis, fun k hk => hk, fun f hf hk => ?_⟩
      rcases hc f hf hk with h1 | h1
      · simp at h1
      · exact h1
    | cons cur rest =>
      have hrest : ∀ f ∈ rest, SeparatorFreeForm f := fun f hf => hq f (by simp [hf])
      have hcur : SeparatorFreeForm cur := hq cur (by simp)
      rw [bfs_cons] at h
      by_cases h1 : totalTerminalBytes terminals cur > word.length
      · rw [if_pos h1] at h
        refine ih ⟨rest, vis⟩ hrest ?_ h
        intro f hf hk
        rcases hc f hf hk with h2 | h2
        · rcases List.mem_cons.mp h2 with rfl | h2
          · exact Or.inr (fun hb => absurd hb (by omega))
          · exact Or.inl h2
        · exact Or.inr h2
      · rw [if_neg h1] at h
        by_cases h2 : isAllTerminals terminals cur = true
        · rw [if_pos h2] at h
          by_cases h3 : concatTerminals cur = word
          · rw [if_pos h3] at h
            simp at h
          · rw [if_neg h3] at h
            refine ih ⟨rest, vis⟩ hrest ?_ h
            intro f hf hk
            rcases hc f hf hk with h4 | h4
            · rcases List.mem_cons.mp h4 with rfl | h4
              · refine Or.inr (fun _ => ⟨fun _ => ?_, fun hnt => ?_⟩)
                · rw [← concatTerminals_eq]
                  exact h3
                · obtain ⟨tk, htk, hno⟩ := hnt
                  exact absurd ((isAllTerminals_iff _ _).mp h2 tk htk) hno
              · exact Or.inl h4
            · exact Or.inr h4
        · rw [if_neg h2] at h
          cases h3 : expand word terminals cur productions ⟨rest, vis⟩ with
          | none =>
            rw [h3] at h
            simp at h
          | some st2 =>
            rw [h3] at h
            obtain ⟨e, _, _⟩ :=
              expand_some word terminals productions cur productions (fun _ hp => hp) _ _ h3
            have hsub := e.visited_subset
            obtain ⟨news, eq, ev, es, en, ed⟩ := e
            have hnews : ∀ n ∈ news, SeparatorFreeForm n := fun n hn =>
              separatorFreeForm_step hsep hcur (es n hn).1
            have hq2 : ∀ f ∈ st2.queue, SeparatorFreeForm f := by
              intro f hf
              rw [eq] at hf
              rcases List.mem_append.mp hf with hf | hf
              · exact hrest f hf
              · exact hnews f hf
            have hc2 : ∀ f, SeparatorFreeForm f → encodeForm f ∈ st2.visited →
                f ∈ st2.queue ∨ Settled word terminals productions st2.visited f := by
              intro f hf hk
              rw [ev] at hk
              rcases List.mem_append.mp hk with hk | hk
              · obtain ⟨n, hn, hnf⟩ := List.mem_map.mp (List.mem_reverse.mp hk)
                have := encodeForm_injective n f (hnews n hn) hf hnf
                subst this
                exact Or.inl (by rw [eq]; simp [hn])
              · rcases hc f hf hk with h4 | h4
                · rcases List.mem_cons.mp h4 with rfl | h4
                  · exact Or.inr (fun _ => ⟨fun hall =>
                      absurd ((isAllTerminals_iff _ _).mpr hall) h2,
                      fun _ g hg hgb =>
                        expand_complete word terminals productions f _ _ h3 g hg hgb⟩)
                  · exact Or.inl (by rw [eq]; simp [h4])
                · exact Or.inr (Settled.mono word terminals productions hsub h4)
            obtain ⟨vis2, hsub2, hclosed⟩ := ih st2 hq2 hc2 h
            exact ⟨vis2, fun k hk => hsub2 k (hsub k hk), hclosed⟩

/-- When the queue runs empty, the visited set is closed and holds at most `MAX_VISITED`
keys. -/
theorem bfs_exhausted_length (hsep : ∀ p ∈ productions, SeparatorFreeForm p.rhs)
    (fuel : Nat) (st : SearchState)
    (hq : ∀ f ∈ st.queue, SeparatorFreeForm f) (hv : st.visited.length ≤ MAX_VISITED)
    (hc : ∀ f, SeparatorFreeForm f → encodeForm f ∈ st.visited →
      f ∈ st.queue ∨ Settled word terminals productions st.visited f)
    (h : bfs word terminals productions fuel st = some .exhausted) :
    ∃ vis : List Str, vis.length ≤ MAX_VISITED ∧ (∀ k ∈ st.visited, k ∈ vis)
      ∧ ∀ f, SeparatorFreeForm f → encodeForm f ∈ vis →
          Settled word terminals productions vis f := by
  induction fuel generalizing st with
  | zero => simp [bfs] at h
  | succ fuel ih =>
    obtain ⟨q, vis⟩ := st
    cases q with
    | nil =>
      refine ⟨vis, hv, fun k hk => hk, fun f hf hk => ?_⟩
      rcases hc f hf hk with h1 | h1
      · simp at h1
      · exact h1
    | cons cur rest =>
      have hrest : ∀ f ∈ rest, SeparatorFreeForm f := fun f hf => hq f (by simp [hf])
      have hcur : SeparatorFreeForm cur := hq cur (by simp)
      rw [bfs_cons] at h
      by_cases h1 : totalTerminalBytes terminals cur > word.length
      · rw [if_pos h1] at h
        refine ih ⟨rest, vis⟩ hrest hv ?_ h
        intro f hf hk
        rcases hc f hf hk with h2 | h2
        · rcases List.mem_cons.mp h2 with rfl | h2
          · exact Or.inr (fun hb => absurd hb (by omega))
          · exact Or.inl h2
        · exact Or.inr h2
      · rw [if_neg h1] at h
        by_cases h2 : isAllTerminals terminals cur = true
        · rw [if_pos h2] at h
          by_cases h3 : concatTerminals cur = word
          · rw [if_pos h3] at h
            simp at h
          · rw [if_neg h3] at h
            refine ih ⟨rest, vis⟩ hrest hv ?_ h
            intro f hf hk
            rcases hc f hf hk with h4 | h4
            · rcases List.mem_cons.mp h4 with rfl | h4
              · refine Or.inr (fun _ => ⟨fun _ => ?_, fun hnt => ?_⟩)
                · rw [← concatTerminals_eq]
                  exact h3
                · obtain ⟨tk, htk, hno⟩ := hnt
                  exact absurd ((isAllTerminals_iff _ _).mp h2 tk htk) hno
              · exact Or.inl h4
            · exact Or.inr h4
        · rw [if_neg h2] at h
          cases h3 : expand word terminals cur productions ⟨rest, vis⟩ with
          | none =>
            rw [h3] at h
            simp at h
          | some st2 =>
            rw [h3] at h
            obtain ⟨e, _, hl⟩ :=
              expand_some word terminals productions cur productions (fun _ hp => hp) _ _ h3
            have hv2 := hl hv
            have hsub := e.visited_subset
            obtain ⟨news, eq, ev, es, en, ed⟩ := e
            have hnews : ∀ n ∈ news, SeparatorFreeForm n := fun n hn =>
              separatorFreeForm_step hsep hcur (es n hn).1
            have hq2 : ∀ f ∈ st2.queue, SeparatorFreeForm f := by
              intro f hf
              rw [eq] at hf
              rcases List.mem_append.mp hf with hf | hf
              · exact hrest f hf
              · exact hnews f hf
            have hc2 : ∀ f, SeparatorFreeForm f → encodeForm f ∈ st2.visited →
                f ∈ st2.queue ∨ Settled word terminals productions st2.visited f := by
              intro f hf hk
              rw [ev] at hk
              rcases List.mem_append.mp hk with hk | hk
              · obtain ⟨n, hn, hnf⟩ := List.mem_map.mp (List.mem_reverse.mp hk)
                have := encodeForm_injective n f (hnews n hn) hf hnf
                subst this
                exact Or.inl (by rw [eq]; simp [hn])
              · rcases hc f hf hk with h4 | h4
                · rcases List.mem_cons.mp h4 with rfl | h4
                  · exact Or.inr (fun _ => ⟨fun hall =>
                      absurd ((isAllTerminals_iff _ _).mpr hall) h2,
                      fun _ g hg hgb =>
                        expand_complete word terminals productions f _ _ h3 g hg hgb⟩)
                  · exact Or.inl (by rw [eq]; simp [h4])
                · exact Or.inr (Settled.mono word terminals productions hsub h4)
            obtain ⟨vis2, hlen2, hsub2, hclosed⟩ := ih st2 hq2 hv2 hc2 h
            exact ⟨vis2, hlen2, fun k hk => hsub2 k (hsub k hk), hclosed⟩

end Search

/-! ## The entry point `checkWord` -/

section CheckWord

variable (word : Str) (terminals nonterminals : List Str) (productions : List Production)
  (start : Str)

theorem checkWord_eq_true_iff :
    checkWord word terminals nonterminals productions start = true
      ↔ searchOutcome word terminals nonterminals productions start = some .found := by
  simp [checkWord]

/-- The fuel given to the loop by `checkWord` is enough. -/
theorem bfs_fuel :
    ∃ o, bfs word terminals productions (MAX_VISITED + 1) (initState start) = some o := by
  apply bfs_some
  · show [encodeForm [start]].length ≤ MAX_VISITED
    rw [List.length_singleton]
    unfold MAX_VISITED
    omega
  · show [[start]].length + (MAX_VISITED - [encodeForm [start]].length) < MAX_VISITED + 1
    rw [List.length_singleton, List.length_singleton]
    unfold MAX_VISITED
    omega

/-- Whatever a run reports as found is derivable, and the visited set of a run that hits
the cap consists of more than `MAX_VISITED` distinct keys of forms with property `Q`. -/
theorem searchOutcome_invariant (Q : Form → Prop) (hstart : Q [start])
    (hQ : ∀ f g, Q f → totalTerminalBytes terminals f ≤ word.length →
      (∃ tk ∈ f, tk ∉ terminals) → Step productions f g →
      totalTerminalBytes terminals g ≤ word.length → Q g)
    (o : Outcome) (h : searchOutcome word terminals nonterminals productions start = some o) :
    (o = .found → ∃ f, Q f ∧ (∀ tk ∈ f, tk ∈ terminals) ∧ f.flatten = word)
    ∧ (o = .limitReached → ∃ vis : List Str, vis.Nodup
        ∧ (∀ k ∈ vis, ∃ f, Q f ∧ encodeForm f = k) ∧ vis.length > MAX_VISITED) := by
  refine bfs_invariant word terminals productions Q hQ _ (initState start) o ?_ ?_ ?_ h
  · intro f hf
    simp only [initState, List.mem_singleton] at hf
    rw [hf]
    exact hstart
  · intro k hk
    simp only [initState, List.mem_singleton] at hk
    exact ⟨[start], hstart, hk.symm⟩
  · simp [initState]

/-- A target that the search can reach by a chain within the length budget is found
unless the state cap stops the run. -/
theorem searchOutcome_complete (hsep : SeparatorFree productions start)
    (hd : SearchDerivable word terminals productions start)
    (hcap : searchOutcome word terminals nonterminals productions start ≠ some .limitReached) :
    searchOutcome word terminals nonterminals productions start = some .found := by
  obtain ⟨o, ho⟩ := bfs_fuel word terminals productions start
  have hso : searchOutcome word terminals nonterminals productions start = some o := ho
  rw [hso] at hcap ⊢
  cases o with
  | found => rfl
  | limitReached => exact absurd rfl hcap
  | exhausted =>
    exfalso
    have hs0 : SeparatorFreeForm [start] := by
      intro tk htk
      rw [List.mem_singleton] at htk
      rw [htk]
      exact hsep.1
    obtain ⟨vis, hsub, hclosed⟩ :=
      bfs_exhausted word terminals productions hsep.2 _ (initState start)
        (by
          intro f hf
          simp only [initState, List.mem_singleton] at hf
          rw [hf]
          exact hs0)
        (by
          intro f hf hk
          simp only [initState, List.mem_singleton] at hk
          left
          simp only [initState, List.mem_singleton]
          exact encodeForm_injective f [start] hf hs0 hk)
        ho
    obtain ⟨f, hchain, hall, hspell⟩ := hd
    have hreach : SeparatorFreeForm f ∧ encodeForm f ∈ vis := by
      clear hall hspell
      induction hchain with
      | refl => exact ⟨hs0, hsub _ (by simp [initState])⟩
      | tail _ hbc ih =>
        obtain ⟨hstep, hb, hnt, hgb⟩ := hbc
        exact ⟨separatorFreeForm_step hsep.2 ih.1 hstep,
          ((hclosed _ ih.1 ih.2) hb).2 hnt _ hstep hgb⟩
    have hlen : totalTerminalBytes terminals f ≤ word.length := by
      rw [totalTerminalBytes_of_allTerminals terminals f hall, hspell]
    exact ((hclosed f hreach.1 hreach.2) hlen).1 hall hspell

end CheckWord

/-! ## Soundness, completeness and termination of `checkWord` -/

/-- Claim C1 (no false positives): whenever `checkWord` returns `true`, some finite
chain of rule applications, each replacing one contiguous occurrence of a left-hand
side by the right-hand side, leads from `[start]` to a form whose symbols are all
terminals and whose concatenated spelling is the target. -/
theorem checkWord_sound (word : Str) (terminals nonterminals : List Str)
    (productions : List Production) (start : Str)
    (h : checkWord word terminals nonterminals productions start = true) :
    Derivable word terminals productions start := by
  rw [checkWord_eq_true_iff] at h
  exact (searchOutcome_invariant word terminals nonterminals productions start
    (Derives productions [start]) Relation.ReflTransGen.refl
    (fun _ _ hf _ _ hstep _ => Relation.ReflTransGen.tail hf hstep) _ h).1 rfl

theorem checkWord_sound_witness :
    checkWord [97, 97, 98, 98] [[97], [98]] [[83]]
        [⟨[[83]], [[97], [83], [98]]⟩, ⟨[[83]], []⟩] [83] = true
      ∧ Derivable [97, 97, 98, 98] [[97], [98]]
        [⟨[[83]], [[97], [83], [98]]⟩, ⟨[[83]], []⟩] [83] :=
  ⟨by decide, checkWord_sound _ _ [[83]] _ _ (by decide)⟩

/-- Claim C2 as stated fails.  With terminals `a`, `b`, start `S` and the productions
`S -> a a` and `a a -> b`, the target `b` is derivable (`S`, `a a`, `b`), no left-hand
side is empty, no symbol contains `0x1F`, the cap is not reached, and `checkWord`
returns `false`: the intermediate form `a a` is over the length budget and dropped. -/
theorem checkWord_complete_counterexample :
    (∀ p ∈ [(⟨[[83]], [[97], [97]]⟩ : Production), ⟨[[97], [97]], [[98]]⟩], p.lhs ≠ [])
    ∧ (∀ p ∈ [(⟨[[83]], [[97], [97]]⟩ : Production), ⟨[[97], [97]], [[98]]⟩],
        ∀ tk ∈ p.lhs ++ p.rhs, (0x1F : Byte) ∉ tk)
    ∧ (∀ tk ∈ [[97], [98], ([83] : Str)], (0x1F : Byte) ∉ tk)
    ∧ Derivable [98] [[97], [98]] [⟨[[83]], [[97], [97]]⟩, ⟨[[97], [97]], [[98]]⟩] [83]
    ∧ searchOutcome [98] [[97], [98]] [[83]]
        [⟨[[83]], [[97], [97]]⟩, ⟨[[97], [97]], [[98]]⟩] [83] ≠ some .limitReached
    ∧ checkWord [98] [[97], [98]] [[83]]
        [⟨[[83]], [[97], [97]]⟩, ⟨[[97], [97]], [[98]]⟩] [83] = false := by
  refine ⟨by decide, by decide, by decide, ?_, by decide, by decide⟩
  refine ⟨[[98]], ?_, by decide, by decide⟩
  have s1 : Step [⟨[[83]], [[97], [97]]⟩, ⟨[[97], [97]], [[98]]⟩] [[83]] [[97], [97]] :=
    ⟨⟨[[83]], [[97], [97]]⟩, by simp, [], [], rfl, rfl⟩
  have s2 : Step [⟨[[83]], [[97], [97]]⟩, ⟨[[97], [97]], [[98]]⟩] [[97], [97]] [[98]] :=
    ⟨⟨[[97], [97]], [[98]]⟩, by simp, [], [], rfl, rfl⟩
  exact Relation.ReflTransGen.tail (Relation.ReflTransGen.tail Relation.ReflTransGen.refl s1) s2

/-- Claim C2, amended (completeness up to the state cap along chains within the length
budget): if the start symbol and the right-hand sides do not contain the byte `0x1F`,
some chain of rule applications leads from `[start]` to a form of terminals spelling
the target, every form of the chain has terminal byte-length at most the byte-length of
the target, every form before the last has a symbol that is not a terminal, and the
search does not reach the seen-state cap, then `checkWord` returns `true`. -/
theorem checkWord_complete_within_budget (word : Str) (terminals nonterminals : List Str)
    (productions : List Production) (start : Str)
    (hsep : SeparatorFree productions start)
    (hd : SearchDerivable word terminals productions start)
    (hcap : searchOutcome word terminals nonterminals productions start
      ≠ some .limitReached) :
    checkWord word terminals nonterminals productions start = true := by
  rw [checkWord_eq_true_iff]
  exact searchOutcome_complete word terminals nonterminals productions start hsep hd hcap

theorem checkWord_complete_within_budget_witness :
    checkWord [97, 98] [[97], [98]] [[83]]
      [⟨[[83]], [[97], [83], [98]]⟩, ⟨[[83]], []⟩] [83] = true := by
  refine checkWord_complete_within_budget _ _ _ _ _ ?_ ?_ (by decide)
  · decide
  · refine ⟨[[97], [98]], ?_, by decide, by decide⟩
    have s1 : SearchStep [97, 98] [[97], [98]] [⟨[[83]], [[97], [83], [98]]⟩, ⟨[[83]], []⟩]
        [[83]] [[97], [83], [98]] :=
      ⟨⟨⟨[[83]], [[97], [83], [98]]⟩, by simp, [], [], rfl, rfl⟩, by decide,
        ⟨[83], by decide, by decide⟩, by decide⟩
    have s2 : SearchStep [97, 98] [[97], [98]] [⟨[[83]], [[97], [83], [98]]⟩, ⟨[[83]], []⟩]
        [[97], [83], [98]] [[97], [98]] :=
      ⟨⟨⟨[[83]], []⟩, by simp, [[97]], [[98]], rfl, rfl⟩, by decide,
        ⟨[83], by decide, by decide⟩, by decide⟩
    exact Relation.ReflTransGen.tail
      (Relation.ReflTransGen.tail Relation.ReflTransGen.refl s1) s2

/-- Claim C6 (termination): for every target, terminal set, production list and start
symbol the loop of `checkWord` ends within `MAX_VISITED + 1` iterations with one of its
three outcomes, more fuel never changes that outcome, and `checkWord` returns the
boolean saying whether the outcome is `found`. -/
theorem checkWord_terminates (word : Str) (terminals nonterminals : List Str)
    (productions : List Production) (start : Str) :
    ∃ o : Outcome,
      (∀ k, bfs word terminals productions (MAX_VISITED + 1 + k) (initState start) = some o)
      ∧ searchOutcome word terminals nonterminals productions start = some o
      ∧ checkWord word terminals nonterminals productions start = decide (o = .found) := by
  obtain ⟨o, ho⟩ := bfs_fuel word terminals productions start
  have hso : searchOutcome word terminals nonterminals productions start = some o := ho
  refine ⟨o, fun k => bfs_mono word terminals productions _ _ o ho k, hso, ?_⟩
  unfold checkWord
  rw [hso]
  cases o <;> rfl

/-! ## Rule application with an empty right-hand side -/

/-- Claim C9 (epsilon correctness): for a production with empty right-hand side whose
left-hand side matches `cur` at `pos`, the form built by the rule-application step is
`cur` without the slice `[pos, pos + |LHS|)`, that slice being the left-hand side, and
its terminal byte-length is at most that of `cur`. -/
theorem buildNext_epsilon (terminals : List Str) (cur : Form) (prod : Production) (pos : Nat)
    (hrhs : prod.rhs = []) (hpos : pos + prod.lhs.length ≤ cur.length)
    (hm : lhsMatches cur prod.lhs pos = true) :
    buildNext cur prod pos = cur.take pos ++ cur.drop (pos + prod.lhs.length)
      ∧ cur = cur.take pos ++ prod.lhs ++ cur.drop (pos + prod.lhs.length)
      ∧ (buildNext cur prod pos).length + prod.lhs.length = cur.length
      ∧ totalTerminalBytes terminals (buildNext cur prod pos)
          ≤ totalTerminalBytes terminals cur := by
  have hnext : buildNext cur prod pos = cur.take pos ++ cur.drop (pos + prod.lhs.length) := by
    rw [buildNext_eq, hrhs, List.append_nil]
  have hsplit := lhsMatches_split cur prod.lhs pos hm
  refine ⟨hnext, hsplit, ?_, ?_⟩
  · rw [hnext]
    simp only [List.length_append, List.length_take, List.length_drop]
    omega
  · rw [hnext]
    conv_rhs => rw [hsplit]
    simp only [totalTerminalBytes_append]
    omega

theorem buildNext_epsilon_witness :
    buildNext [[97], [83], [98]] ⟨[[83]], []⟩ 1 = [[97], [98]]
      ∧ totalTerminalBytes [[97], [98]] (buildNext [[97], [83], [98]] ⟨[[83]], []⟩ 1)
          ≤ totalTerminalBytes [[97], [98]] [[97], [83], [98]] :=
  have h := buildNext_epsilon [[97], [98]] [[97], [83], [98]] ⟨[[83]], []⟩ 1 rfl
    (by decide) (by decide)
  ⟨h.1, h.2.2.2⟩

/-! ## Pruning -/

theorem bfsTrace_fst (word : Str) (terminals : List Str) (productions : List Production)
    (fuel : Nat) (st : SearchState) (log : List Event) :
    (bfsTrace word terminals productions fuel st log).map Prod.fst
      = bfs word terminals productions fuel st := by
  induction fuel generalizing st log with
  | zero => rfl
  | succ fuel ih =>
    obtain ⟨q, vis⟩ := st
    cases q with
    | nil => rfl
    | cons cur rest =>
      rw [bfs_cons]
      unfold bfsTrace
      simp only []
      split
      · exact ih _ _
      · split
        · split
          · rfl
          · exact ih _ _
        · cases expand word terminals cur productions ⟨rest, vis⟩ with
          | none => rfl
          | some st2 => exact ih _ _

theorem bfsTrace_bound (word : Str) (terminals : List Str) (productions : List Production)
    (fuel : Nat) (st : SearchState) (log : List Event) (o : Outcome) (log2 : List Event)
    (hlog : ∀ e ∈ log, totalTerminalBytes terminals e.form ≤ word.length)
    (h : bfsTrace word terminals productions fuel st log = some (o, log2)) :
    ∀ e ∈ log2, totalTerminalBytes terminals e.form ≤ word.length := by
  induction fuel generalizing st log with
  | zero => simp [bfsTrace] at h
  | succ fuel ih =>
    obtain ⟨q, vis⟩ := st
    cases q with
    | nil =>
      simp only [bfsTrace, Option.some.injEq, Prod.mk.injEq] at h
      rw [← h.2]
      exact hlog
    | cons cur rest =>
      unfold bfsTrace at h
      simp only [] at h
      have hlog2 : ∀ ev : Event, ev.form = cur →
          ¬ totalTerminalBytes terminals cur > word.length →
          ∀ e ∈ log ++ [ev], totalTerminalBytes terminals e.form ≤ word.length := by
        intro ev hev hb e he
        rcases List.mem_append.mp he with he | he
        · exact hlog e he
        · rw [List.mem_singleton] at he
          rw [he, hev]
          omega
      split at h
      · exact ih _ _ hlog h
      · rename_i hb
        split at h
        · split at h
          · simp only [Option.some.injEq, Prod.mk.injEq] at h
            rw [← h.2]
            exact hlog2 _ rfl hb
          · exact ih _ _ hlog h
        · split at h
          · simp only [Option.some.injEq, Prod.mk.injEq] at h
            rw [← h.2]
            exact hlog2 _ rfl hb
          · exact ih _ _ (hlog2 (.expanded cur) rfl hb) h

/-- Claim C10 (pruning correctness): every run of `checkWord` ends, its record has the
outcome of the run, and every form the run expands (applies the productions to) or
reports as the match has a terminal byte-length that does not exceed the byte-length
of the target; a form over that length is neither expanded nor reported. -/
theorem checkWord_pruning (word : Str) (terminals nonterminals : List Str)
    (productions : List Production) (start : Str) :
    ∃ o log, searchTrace word terminals nonterminals productions start = some (o, log)
      ∧ searchOutcome word terminals nonterminals productions start = some o
      ∧ ∀ e ∈ log, totalTerminalBytes terminals e.form ≤ word.length := by
  obtain ⟨o, ho⟩ := bfs_fuel word terminals productions start
  have hfst := bfsTrace_fst word terminals productions (MAX_VISITED + 1) (initState start) []
  rw [ho] at hfst
  cases htr : bfsTrace word terminals productions (MAX_VISITED + 1) (initState start) [] with
  | none =>
    rw [htr] at hfst
    simp at hfst
  | some r =>
    obtain ⟨o2, log⟩ := r
    rw [htr] at hfst
    simp only [Option.map_some', Option.some.injEq] at hfst
    subst hfst
    exact ⟨o2, log, htr, ho,
      bfsTrace_bound word terminals productions _ _ [] o2 log (by simp) htr⟩

theorem checkWord_pruning_witness :
    ∀ e ∈ [Event.expanded [[83]], .expanded [[97], [83], [98]], .reported [[97], [98]]],
      totalTerminalBytes [[97], [98]] e.form ≤ ([97, 98] : Str).length := by
  obtain ⟨o, log, h1, _, h3⟩ := checkWord_pruning [97, 98] [[97], [98]] [[83]]
    [⟨[[83]], [[97], [83], [98]]⟩, ⟨[[83]], []⟩] [83]
  have h : searchTrace [97, 98] [[97], [98]] [[83]]
      [⟨[[83]], [[97], [83], [98]]⟩, ⟨[[83]], []⟩] [83]
      = some (.found,
          [.expanded [[83]], .expanded [[97], [83], [98]], .reported [[97], [98]]]) := by
    decide
  rw [h] at h1
  simp only [Option.some.injEq, Prod.mk.injEq] at h1
  rw [h1.2]
  exact h3

/-! ## The end-to-end scenarios -/

/-- A symbol that occurs once splits a list in one way only. -/
theorem split_unique {α : Type} (x : α) (l1 l2 u v : List α) (h1 : x ∉ l1) (h2 : x ∉ l2)
    (h : l1 ++ x :: l2 = u ++ x :: v) : u = l1 ∧ v = l2 := by
  induction l1 generalizing u with
  | nil =>
    cases u with
    | nil => exact ⟨rfl, by simpa using h.symm⟩
    | cons y u2 =>
      exfalso
      simp only [List.nil_append, List.cons_append, List.cons.injEq] at h
      exact h2 (by rw [h.2]; simp)
  | cons a l ih =>
    cases u with
    | nil =>
      exfalso
      simp only [List.nil_append, List.cons_append, List.cons.injEq] at h
      exact h1 (by rw [h.1]; simp)
    | cons y u2 =>
      simp only [List.cons_append, List.cons.injEq] at h
      obtain ⟨hu, hv⟩ := ih u2 (fun hm => h1 (List.mem_cons_of_mem _ hm)) h.2
      exact ⟨by rw [h.1, hu], hv⟩

theorem totalTerminalBytes_replicate (terminals : List Str) (tk : Str) (k : Nat)
    (h : tk ∈ terminals) :
    totalTerminalBytes terminals (List.replicate k tk) = k * tk.length := by
  induction k with
  | zero => simp [totalTerminalBytes_eq]
  | succ k ih =>
    rw [List.replicate_succ, ← List.singleton_append, totalTerminalBytes_append, ih]
    simp only [totalTerminalBytes_eq, List.map_cons, List.map_nil, List.sum_cons,
      List.sum_nil, if_pos h]
    rw [Nat.add_mul]
    omega

theorem totalTerminalBytes_midForm (k : Nat) :
    totalTerminalBytes [[97], [98]] (midForm k) = 2 * k := by
  unfold midForm
  rw [totalTerminalBytes_append, totalTerminalBytes_append,
    totalTerminalBytes_replicate _ _ _ (by decide),
    totalTerminalBytes_replicate _ _ _ (by decide)]
  have : totalTerminalBytes [[97], [98]] [[83]] = 0 := by decide
  rw [this]
  simp only [List.length_singleton]
  omega

theorem totalTerminalBytes_endForm (k : Nat) :
    totalTerminalBytes [[97], [98]] (endForm k) = 2 * k := by
  unfold endForm
  rw [totalTerminalBytes_append, totalTerminalBytes_replicate _ _ _ (by decide),
    totalTerminalBytes_replicate _ _ _ (by decide)]
  simp only [List.length_singleton]
  omega

theorem midForm_zero : midForm 0 = [[83]] := rfl

theorem midForm_succ (k : Nat) :
    midForm (k + 1)
      = List.replicate k [97] ++ [[97], [83], [98]] ++ List.replicate k [98] := by
  unfold midForm
  rw [List.replicate_succ' k ([97] : Str), List.replicate_succ ([98] : Str) k]
  simp only [List.append_assoc, List.cons_append, List.nil_append, List.singleton_append]

theorem endForm_allTerminals (k : Nat) : ∀ tk ∈ endForm k, tk ∈ [[97], ([98] : Str)] := by
  intro tk htk
  unfold endForm at htk
  rcases List.mem_append.mp htk with h | h
  · rw [(List.mem_replicate.mp h).2]
    decide
  · rw [(List.mem_replicate.mp h).2]
    decide

theorem endForm_flatten (k : Nat) :
    (endForm k).flatten = List.replicate k 97 ++ List.replicate k 98 := by
  unfold endForm
  rw [List.flatten_append, List.flatten_replicate_singleton, List.flatten_replicate_singleton]

theorem midForm_nonterminal (k : Nat) : ∃ tk ∈ midForm k, tk ∉ [[97], ([98] : Str)] :=
  ⟨[83], by simp [midForm], by decide⟩

/-- The successors of `a^k S b^k` in scenario 1 are `a^(k+1) S b^(k+1)` and `a^k b^k`. -/
theorem step_midForm (k : Nat) (g : Form) (h : Step anbnProductions (midForm k) g) :
    g = midForm (k + 1) ∨ g = endForm k := by
  obtain ⟨p, hp, u, v, hf, hg⟩ := h
  have hlhs : p.lhs = [[83]] := by
    simp only [anbnProductions, List.mem_cons, List.mem_singleton, List.not_mem_nil,
      or_false] at hp
    rcases hp with rfl | rfl <;> rfl
  rw [hlhs] at hf
  have hsplit : List.replicate k ([97] : Str) ++ [83] :: List.replicate k [98]
      = u ++ [83] :: v := by
    have : midForm k = List.replicate k ([97] : Str) ++ [83] :: List.replicate k [98] := by
      simp [midForm]
    rw [← this, hf]
    simp
  obtain ⟨hu, hv⟩ := split_unique _ _ _ _ _
    (fun hm => absurd (List.mem_replicate.mp hm).2 (by decide))
    (fun hm => absurd (List.mem_replicate.mp hm).2 (by decide)) hsplit
  simp only [anbnProductions, List.mem_cons, List.mem_singleton, List.not_mem_nil,
    or_false] at hp
  rcases hp with rfl | rfl
  · left
    rw [hg, hu, hv, midForm_succ]
  · right
    rw [hg, hu, hv]
    simp [endForm]

theorem midForm_step_mid (k : Nat) : Step anbnProductions (midForm k) (midForm (k + 1)) := by
  refine ⟨⟨[[83]], [[97], [83], [98]]⟩, by simp [anbnProductions],
    List.replicate k [97], List.replicate k [98], rfl, midForm_succ k⟩

theorem midForm_step_end (k : Nat) : Step anbnProductions (midForm k) (endForm k) := by
  refine ⟨⟨[[83]], []⟩, by simp [anbnProductions],
    List.replicate k [97], List.replicate k [98], rfl, ?_⟩
  simp [endForm]

theorem anbnForm_step (word : Str) (f g : Form) (hf : AnbnForm word f)
    (hnt : ∃ tk ∈ f, tk ∉ [[97], ([98] : Str)]) (hstep : Step anbnProductions f g)
    (hbg : totalTerminalBytes [[97], [98]] g ≤ word.length) : AnbnForm word g := by
  obtain ⟨k, hk, hlen⟩ := hf
  rcases hk with rfl | rfl
  · rcases step_midForm k g hstep with rfl | rfl
    · rw [totalTerminalBytes_midForm] at hbg
      exact ⟨k + 1, Or.inl rfl, hbg⟩
    · exact ⟨k, Or.inr rfl, hlen⟩
  · obtain ⟨tk, htk, hno⟩ := hnt
    exact absurd (endForm_allTerminals k tk htk) hno

/-- In scenario 1 a target of fewer than `1000000` bytes never drives the search to the
state cap: the visited keys are keys of distinct forms `a^k S b^k`, `a^k b^k` with
`2 * k` at most the length of the target. -/
theorem anbn_no_limit (word : Str) (nonterminals : List Str) (hlen : word.length < 1000000) :
    searchOutcome word [[97], [98]] nonterminals anbnProductions [83]
      ≠ some .limitReached := by
  intro h
  obtain ⟨vis, hnd, hkeys, hbig⟩ :=
    (searchOutcome_invariant word [[97], [98]] nonterminals anbnProductions [83]
      (AnbnForm word) ⟨0, Or.inl rfl, Nat.zero_le _⟩
      (fun f g hf _ hnt hstep hbg => anbnForm_step word f g hf hnt hstep hbg) _ h).2 rfl
  have hsub : vis ⊆ (List.range (word.length / 2 + 1)).map (fun k => encodeForm (midForm k))
      ++ (List.range (word.length / 2 + 1)).map (fun k => encodeForm (endForm k)) := by
    intro key hkey
    obtain ⟨f, ⟨k, hk, hk2⟩, rfl⟩ := hkeys key hkey
    have hrange : k ∈ List.range (word.length / 2 + 1) := List.mem_range.mpr (by omega)
    rcases hk with rfl | rfl
    · exact List.mem_append_left _ (List.mem_map.mpr ⟨k, hrange, rfl⟩)
    · exact List.mem_append_right _ (List.mem_map.mpr ⟨k, hrange, rfl⟩)
  have hle := (List.subperm_of_subset hnd hsub).length_le
  simp only [List.length_append, List.length_map, List.length_range] at hle
  unfold MAX_VISITED at hbig
  omega

theorem anbn_chain (word : Str) (n : Nat) (hlen : 2 * n ≤ word.length) (k : Nat) (hk : k ≤ n) :
    Relation.ReflTransGen (SearchStep word [[97], [98]] anbnProductions) [[83]] (midForm k) := by
  induction k with
  | zero => exact Relation.ReflTransGen.refl
  | succ k ih =>
    refine Relation.ReflTransGen.tail (ih (by omega))
      ⟨midForm_step_mid k, ?_, midForm_nonterminal k, ?_⟩
    · rw [totalTerminalBytes_midForm]
      omega
    · rw [totalTerminalBytes_midForm]
      omega

/-- Claim C7 (end-to-end scenario 1): with terminals `a`, `b`, start `S` and the
productions `S -> a S b`, `S -> e`, for every target of fewer than `1000000` bytes
`checkWord` returns `true` exactly when the target is `n` copies of `a` followed by `n`
copies of `b` for some `n`; the run ends by finding the target or by emptying the
queue, never at the state cap. -/
theorem checkWord_anbn (word : Str) (nonterminals : List Str)
    (hlen : word.length < 1000000) :
    (checkWord word [[97], [98]] nonterminals anbnProductions [83] = true
        ↔ ∃ n, word = List.replicate n 97 ++ List.replicate n 98)
      ∧ (searchOutcome word [[97], [98]] nonterminals anbnProductions [83] = some .found
        ∨ searchOutcome word [[97], [98]] nonterminals anbnProductions [83]
            = some .exhausted) := by
  refine ⟨⟨?_, ?_⟩, ?_⟩
  · intro h
    rw [checkWord_eq_true_iff] at h
    obtain ⟨f, ⟨k, hk, _⟩, hall, hspell⟩ :=
      (searchOutcome_invariant word [[97], [98]] nonterminals anbnProductions [83]
        (AnbnForm word) ⟨0, Or.inl rfl, Nat.zero_le _⟩
        (fun f g hf _ hnt hstep hbg => anbnForm_step word f g hf hnt hstep hbg) _ h).1 rfl
    rcases hk with rfl | rfl
    · obtain ⟨tk, htk, hno⟩ := midForm_nonterminal k
      exact absurd (hall tk htk) hno
    · exact ⟨k, by rw [← hspell, endForm_flatten]⟩
  · rintro ⟨n, rfl⟩
    have hn : 2 * n ≤ (List.replicate n (97 : Byte) ++ List.replicate n 98).length := by
      simp only [List.length_append, List.length_replicate]
      omega
    rw [checkWord_eq_true_iff]
    refine searchOutcome_complete _ _ _ _ _ (by decide) ?_
      (anbn_no_limit _ nonterminals hlen)
    refine ⟨endForm n, ?_, endForm_allTerminals n, endForm_flatten n⟩
    refine Relation.ReflTransGen.tail (anbn_chain _ n hn n (Nat.le_refl n))
      ⟨midForm_step_end n, ?_, midForm_nonterminal n, ?_⟩
    · rw [totalTerminalBytes_midForm]
      exact hn
    · rw [totalTerminalBytes_endForm]
      exact hn
  · obtain ⟨o, ho⟩ := bfs_fuel word [[97], [98]] anbnProductions [83]
    have hso : searchOutcome word [[97], [98]] nonterminals anbnProductions [83] = some o := ho
    have hcap := anbn_no_limit word nonterminals hlen
    rw [hso] at hcap ⊢
    cases o with
    | found => exact Or.inl rfl
    | exhausted => exact Or.inr rfl
    | limitReached => exact absurd rfl hcap

theorem checkWord_anbn_witness :
    checkWord [97, 97, 98, 98] [[97], [98]] [[83]] anbnProductions [83] = true
      ∧ checkWord [97, 97, 98] [[97], [98]] [[83]] anbnProductions [83] = false := by
  constructor
  · exact (checkWord_anbn [97, 97, 98, 98] [[83]] (by decide)).1.mpr ⟨2, rfl⟩
  · rw [Bool.eq_false_iff]
    intro h
    obtain ⟨n, hn⟩ := (checkWord_anbn [97, 97, 98] [[83]] (by decide)).1.mp h
    have := congrArg List.length hn
    simp only [List.length_append, List.length_replicate, List.length_cons,
      List.length_nil] at this
    omega

theorem loopForm_step (f g : Form) (hf : LoopForm f) (hstep : Step loopProductions f g) :
    LoopForm g := by
  obtain ⟨k, rfl⟩ := hf
  obtain ⟨p, hp, u, v, hf, hg⟩ := hstep
  simp only [loopProductions, List.mem_singleton] at hp
  subst hp
  have hsplit : List.replicate k ([97] : Str) ++ [83] :: [] = u ++ [83] :: v := by
    rw [hf]
    simp
  obtain ⟨hu, hv⟩ := split_unique _ _ _ _ _
    (fun hm => absurd (List.mem_replicate.mp hm).2 (by decide)) (by simp) hsplit
  refine ⟨k + 1, ?_⟩
  rw [hg, hu, hv, List.replicate_succ' k]
  simp

/-- Claim C8 (end-to-end scenario 2): with the terminal `a`, start `S` and the single
production `S -> a S`, `checkWord` returns `false` for every target, the empty string
included: the run ends without a match, and no form derivable from `[S]` consists of
terminals only. -/
theorem checkWord_loop (word : Str) (nonterminals : List Str) :
    checkWord word [[97]] nonterminals loopProductions [83] = false
      ∧ (searchOutcome word [[97]] nonterminals loopProductions [83] = some .exhausted
        ∨ searchOutcome word [[97]] nonterminals loopProductions [83]
            = some .limitReached)
      ∧ ∀ f, Derives loopProductions [[83]] f → ¬ ∀ tk ∈ f, tk ∈ [([97] : Str)] := by
  have hno : ∀ f, LoopForm f → ¬ ∀ tk ∈ f, tk ∈ [([97] : Str)] := by
    rintro f ⟨k, rfl⟩ hall
    exact absurd (hall [83] (by simp)) (by decide)
  have hnf : searchOutcome word [[97]] nonterminals loopProductions [83] ≠ some .found := by
    intro h
    obtain ⟨f, hf, hall, _⟩ :=
      (searchOutcome_invariant word [[97]] nonterminals loopProductions [83]
        LoopForm ⟨0, rfl⟩ (fun f g hf _ _ hstep _ => loopForm_step f g hf hstep) _ h).1 rfl
    exact hno f hf hall
  refine ⟨?_, ?_, ?_⟩
  · rw [Bool.eq_false_iff]
    intro h
    rw [checkWord_eq_true_iff] at h
    exact hnf h
  · obtain ⟨o, ho⟩ := bfs_fuel word [[97]] loopProductions [83]
    have hso : searchOutcome word [[97]] nonterminals loopProductions [83] = some o := ho
    rw [hso] at hnf ⊢
    cases o with
    | found => exact absurd rfl hnf
    | exhausted => exact Or.inl rfl
    | limitReached => exact Or.inr rfl
  · intro f hd
    apply hno
    induction hd with
    | refl => exact ⟨0, rfl⟩
    | tail _ hstep ih => exact loopForm_step _ _ ih hstep

/-! ## The tokenizer -/

section Tokenizer

variable (s : Str) (terminals nonterminals : List Str)

theorem toInt32_of_lt (n : Nat) (h : n < 2147483648) : toInt32 n = (n : Int) := by
  unfold toInt32
  omega

theorem foldl_max_length (l : List Str) (init : Int) :
    init ≤ l.foldl (fun m x => max m (toInt32 x.length)) init
      ∧ ∀ x ∈ l, toInt32 x.length ≤ l.foldl (fun m x => max m (toInt32 x.length)) init := by
  induction l generalizing init with
  | nil => simp
  | cons a l ih =>
    obtain ⟨h1, h2⟩ := ih (max init (toInt32 a.length))
    rw [List.foldl_cons]
    refine ⟨le_trans (le_max_left init (toInt32 a.length)) h1, ?_⟩
    intro x hx
    rcases List.mem_cons.mp hx with rfl | hx
    · exact le_trans (le_max_right init (toInt32 x.length)) h1
    · exact h2 x hx

/-- No known symbol shorter than `2^31` bytes is longer than `maxLen`, unless it is
empty. -/
theorem known_length_le_maxTokenLen (L : Int) (x : Str)
    (hx : Known terminals nonterminals x) (hne : x ≠ []) (hlt : x.length < 2147483648) :
    (x.length : Int) ≤ maxTokenLen terminals nonterminals L := by
  have hpos : 0 < x.length := List.length_pos.mpr hne
  have hle : toInt32 x.length ≤ nonterminals.foldl (fun m x => max m (toInt32 x.length))
      (terminals.foldl (fun m x => max m (toInt32 x.length)) 0) := by
    rcases hx with hx | hx
    · exact le_trans ((foldl_max_length terminals 0).2 x hx) (foldl_max_length nonterminals _).1
    · exact (foldl_max_length nonterminals _).2 x hx
  rw [toInt32_of_lt x.length hlt] at hle
  unfold maxTokenLen
  simp only []
  split
  · omega
  · exact hle

/-- The downward loop over `len` returns the longest candidate in one of the sets, or
the empty string when there is none. -/
theorem findBest_spec (i n : Nat) (hn : n ≤ s.length - i) :
    (findBest s terminals nonterminals i n = []
      ∧ ∀ len, 1 ≤ len → len ≤ n → ¬ Known terminals nonterminals ((s.drop i).take len))
    ∨ ∃ len, 1 ≤ len ∧ len ≤ n
      ∧ findBest s terminals nonterminals i n = (s.drop i).take len
      ∧ Known terminals nonterminals ((s.drop i).take len)
      ∧ ∀ len2, len < len2 → len2 ≤ n →
          ¬ Known terminals nonterminals ((s.drop i).take len2) := by
  induction n with
  | zero =>
    left
    exact ⟨rfl, fun len h1 h2 => by omega⟩
  | succ n ih =>
    unfold findBest
    simp only []
    by_cases hk : (s.drop i).take (n + 1) ∈ terminals ∨ (s.drop i).take (n + 1) ∈ nonterminals
    · rw [if_pos hk]
      right
      exact ⟨n + 1, by omega, le_refl _, rfl, hk, fun len2 h1 h2 => by omega⟩
    · rw [if_neg hk]
      rcases ih (by omega) with ⟨h1, h2⟩ | ⟨len, h1, h2, h3, h4, h5⟩
      · left
        refine ⟨h1, fun len hl1 hl2 => ?_⟩
        by_cases hlen : len = n + 1
        · rw [hlen]
          exact hk
        · exact h2 len hl1 (by omega)
      · right
        refine ⟨len, h1, by omega, h3, h4, fun len2 hl1 hl2 => ?_⟩
        by_cases hlen : len2 = n + 1
        · rw [hlen]
          exact hk
        · exact h5 len2 hl1 (by omega)

/-- The result of the loop over `len` is not longer than its bound. -/
theorem findBest_length_le (i n : Nat) :
    (findBest s terminals nonterminals i n).length ≤ n := by
  induction n with
  | zero => simp [findBest]
  | succ n ih =>
    unfold findBest
    simp only []
    split
    · rw [List.length_take]
      exact min_le_left _ _
    · omega

/-- One iteration of the scan of a string shorter than `2^31` bytes: `best` is empty
exactly when no non-empty known symbol is a prefix of the remaining text, and otherwise
it is a longest known prefix of it. -/
theorem best_spec (hL : s.length < 2147483648) (i : Nat) :
    (bestAt s terminals nonterminals i = []
      ∧ ∀ x, Known terminals nonterminals x → x ≠ [] → ¬ x <+: s.drop i)
    ∨ (bestAt s terminals nonterminals i ≠ []
      ∧ LongestKnownPrefix terminals nonterminals (s.drop i)
          (bestAt s terminals nonterminals i)) := by
  have hLs := toInt32_of_lt s.length hL
  have hbound : (min (toInt32 s.length - (i : Int))
      (maxTokenLen terminals nonterminals (toInt32 s.length))).toNat ≤ s.length - i := by
    rw [hLs]
    omega
  have hcand : ∀ x, Known terminals nonterminals x → x ≠ [] → x <+: s.drop i →
      1 ≤ x.length ∧ x.length ≤ (min (toInt32 s.length - (i : Int))
          (maxTokenLen terminals nonterminals (toInt32 s.length))).toNat
        ∧ (s.drop i).take x.length = x := by
    intro x hx hne hpre
    have h1 : 0 < x.length := List.length_pos.mpr hne
    have h2 := hpre.length_le
    rw [List.length_drop] at h2
    have h3 := known_length_le_maxTokenLen terminals nonterminals (toInt32 s.length) x hx hne
      (by omega)
    refine ⟨h1, ?_, (List.prefix_iff_eq_take.mp hpre).symm⟩
    rw [hLs]
    rw [hLs] at h3
    omega
  unfold bestAt
  rcases findBest_spec s terminals nonterminals i _ hbound with
    ⟨h1, h2⟩ | ⟨len, h1, h2, h3, h4, h5⟩
  · left
    refine ⟨h1, fun x hx hne hpre => ?_⟩
    obtain ⟨c1, c2, c3⟩ := hcand x hx hne hpre
    exact h2 x.length c1 c2 (by rw [c3]; exact hx)
  · right
    have hlen : ((s.drop i).take len).length = len := by
      rw [List.length_take, List.length_drop]
      omega
    rw [h3]
    refine ⟨fun h => ?_, h4, List.take_prefix _ _, fun x hx hpre => ?_⟩
    · rw [h] at hlen
      simp at hlen
      omega
    · rw [hlen]
      by_cases hne : x = []
      · rw [hne]
        simp
      · obtain ⟨_, c2, c3⟩ := hcand x hx hne hpre
        by_contra hlt
        exact h5 x.length (by omega) c2 (by rw [c3]; exact hx)

theorem tokenizeLoop_done (L maxLen : Int) (fuel : Nat) (i : Int) (tokens : List Str)
    (hi : ¬ i < L) :
    tokenizeLoop s terminals nonterminals L maxLen fuel i tokens = some (.tokens tokens) := by
  cases fuel <;> simp [tokenizeLoop, hi]

theorem tokenizeLoop_succ (L maxLen : Int) (fuel : Nat) (i : Int) (tokens : List Str)
    (hi : i < L) :
    tokenizeLoop s terminals nonterminals L maxLen (fuel + 1) i tokens
      = if (findBest s terminals nonterminals i.toNat (min (L - i) maxLen).toNat).isEmpty then
          some (.tokenizationError (s.drop i.toNat))
        else tokenizeLoop s terminals nonterminals L maxLen fuel
          (i + toInt32 (findBest s terminals nonterminals i.toNat
            (min (L - i) maxLen).toNat).length)
          (tokens ++ [findBest s terminals nonterminals i.toNat (min (L - i) maxLen).toNat]) := by
  simp [tokenizeLoop, hi]

/-- When `(int)s.size()` is not positive the loop is not entered and the empty token
vector is returned. -/
theorem tokenize_with_sets_of_nonpos (h : toInt32 s.length ≤ 0) :
    tokenize_with_sets s terminals nonterminals = some (.tokens []) :=
  tokenizeLoop_done s terminals nonterminals _ _ _ 0 [] (by omega)

theorem bestAt_length_le (hL : s.length < 2147483648) (i : Nat) :
    (bestAt s terminals nonterminals i).length ≤ s.length - i := by
  have h := findBest_length_le s terminals nonterminals i
    (min (toInt32 s.length - (i : Int))
      (maxTokenLen terminals nonterminals (toInt32 s.length))).toNat
  rw [toInt32_of_lt s.length hL] at h
  unfold bestAt
  rw [toInt32_of_lt s.length hL]
  omega

theorem tokenizeLoop_stop (hL : s.length < 2147483648) (fuel i : Nat) (tokens : List Str)
    (hi : ¬ i < s.length) :
    tokenizeLoop s terminals nonterminals (toInt32 s.length)
      (maxTokenLen terminals nonterminals (toInt32 s.length)) fuel (i : Int) tokens
        = some (.tokens tokens) :=
  tokenizeLoop_done s terminals nonterminals _ _ fuel _ tokens
    (by rw [toInt32_of_lt s.length hL]; omega)

/-- One iteration of the loop on a string shorter than `2^31` bytes, at a position
`i < L`. -/
theorem tokenizeLoop_step (hL : s.length < 2147483648) (fuel i : Nat) (tokens : List Str)
    (hi : i < s.length) :
    tokenizeLoop s terminals nonterminals (toInt32 s.length)
      (maxTokenLen terminals nonterminals (toInt32 s.length)) (fuel + 1) (i : Int) tokens
      = if (bestAt s terminals nonterminals i).isEmpty then
          some (.tokenizationError (s.drop i))
        else tokenizeLoop s terminals nonterminals (toInt32 s.length)
          (maxTokenLen terminals nonterminals (toInt32 s.length)) fuel
          ((i + (bestAt s terminals nonterminals i).length : Nat) : Int)
          (tokens ++ [bestAt s terminals nonterminals i]) := by
  have hlen := bestAt_length_le s terminals nonterminals hL i
  have hconv := toInt32_of_lt (bestAt s terminals nonterminals i).length (by omega)
  rw [tokenizeLoop_succ s terminals nonterminals _ _ fuel (i : Int) tokens
    (by rw [toInt32_of_lt s.length hL]; omega)]
  simp only [Int.toNat_ofNat]
  unfold bestAt at hconv ⊢
  rw [hconv, Nat.cast_add]

theorem drop_of_prefix (best : Str) (i : Nat) (h : best <+: s.drop i) :
    s.drop i = best ++ s.drop (i + best.length) := by
  obtain ⟨t, ht⟩ := h
  rw [← List.drop_drop, ← ht, List.drop_left]

/-- A successful scan from position `i` appends to the collected tokens a greedy
sequence whose concatenation is the text from `i` on. -/
theorem tokenizeLoop_tokens (hL : s.length < 2147483648) (fuel i : Nat)
    (tokens ts : List Str)
    (h : tokenizeLoop s terminals nonterminals (toInt32 s.length)
      (maxTokenLen terminals nonterminals (toInt32 s.length)) fuel (i : Int) tokens
        = some (.tokens ts)) :
    ∃ new, ts = tokens ++ new ∧ new.flatten = s.drop i
      ∧ Greedy terminals nonterminals new := by
  induction fuel generalizing i tokens with
  | zero =>
    by_cases hlt : i < s.length
    · have hlt2 : (i : Int) < toInt32 s.length := by
        rw [toInt32_of_lt s.length hL]
        omega
      simp [tokenizeLoop, hlt2] at h
    · rw [tokenizeLoop_stop s terminals nonterminals hL 0 i tokens hlt] at h
      simp only [Option.some.injEq, TokenizeResult.tokens.injEq] at h
      exact ⟨[], by simp [h], by simp [List.drop_eq_nil_of_le (Nat.le_of_not_lt hlt)], trivial⟩
  | succ fuel ih =>
    by_cases hlt : i < s.length
    · rw [tokenizeLoop_step s terminals nonterminals hL fuel i tokens hlt] at h
      rcases best_spec s terminals nonterminals hL i with ⟨h1, _⟩ | ⟨h1, h2⟩
      · rw [h1] at h
        simp at h
      · have hne : ¬ (bestAt s terminals nonterminals i).isEmpty = true := by
          rw [List.isEmpty_iff]
          exact h1
        rw [if_neg hne] at h
        obtain ⟨new, hts, hflat, hgreedy⟩ := ih _ _ h
        have hdrop := drop_of_prefix s _ i h2.2.1
        refine ⟨_ :: new, by rw [hts]; simp, ?_, h1, ?_, hgreedy⟩
        · rw [List.flatten_cons, hflat, ← hdrop]
        · rw [hflat, ← hdrop]
          exact h2
    · rw [tokenizeLoop_stop s terminals nonterminals hL _ i tokens hlt] at h
      simp only [Option.some.injEq, TokenizeResult.tokens.injEq] at h
      exact ⟨[], by simp [h], by simp [List.drop_eq_nil_of_le (Nat.le_of_not_lt hlt)], trivial⟩

/-- The scan reproduces every greedy sequence whose concatenation is the text from
position `i` on. -/
theorem tokenizeLoop_greedy (hL : s.length < 2147483648) (new : List Str) (fuel i : Nat)
    (tokens : List Str)
    (hg : Greedy terminals nonterminals new) (hflat : new.flatten = s.drop i)
    (hf : s.length - i ≤ fuel) :
    tokenizeLoop s terminals nonterminals (toInt32 s.length)
      (maxTokenLen terminals nonterminals (toInt32 s.length)) fuel (i : Int) tokens
        = some (.tokens (tokens ++ new)) := by
  induction new generalizing fuel i tokens with
  | nil =>
    have hge : ¬ i < s.length := by
      intro hlt
      have := congrArg List.length hflat
      simp only [List.flatten_nil, List.length_nil, List.length_drop] at this
      omega
    rw [tokenizeLoop_stop s terminals nonterminals hL _ i tokens hge, List.append_nil]
  | cons t rest ih =>
    obtain ⟨hne, hlong, hrest⟩ := hg
    rw [List.flatten_cons] at hflat
    rw [hflat] at hlong
    have htpos := List.length_pos.mpr hne
    have hlt : i < s.length := by
      have := congrArg List.length hflat
      simp only [List.length_append, List.length_drop] at this
      omega
    obtain ⟨fuel, rfl⟩ : ∃ f, fuel = f + 1 := ⟨fuel - 1, by omega⟩
    rw [tokenizeLoop_step s terminals nonterminals hL fuel i tokens hlt]
    rcases best_spec s terminals nonterminals hL i with ⟨_, h2⟩ | ⟨h1, h2⟩
    · exact absurd hlong.2.1 (h2 t hlong.1 hne)
    · have hbest : bestAt s terminals nonterminals i = t := by
        have hle1 := hlong.2.2 _ h2.1 h2.2.1
        have hle2 := h2.2.2 t hlong.1 hlong.2.1
        exact (List.prefix_of_prefix_length_le h2.2.1 hlong.2.1 hle1).eq_of_length
          (by omega)
      rw [hbest]
      have hne2 : ¬ t.isEmpty = true := by
        rw [List.isEmpty_iff]
        exact hne
      rw [if_neg hne2]
      have hdrop := drop_of_prefix s t i hlong.2.1
      have hflat2 : rest.flatten = s.drop (i + t.length) := by
        rw [hdrop] at hflat
        exact List.append_cancel_left hflat
      rw [ih fuel (i + t.length) (tokens ++ [t]) hrest hflat2 (by omega)]
      simp

theorem Greedy.known {l : List Str} (h : Greedy terminals nonterminals l) :
    ∀ t ∈ l, Known terminals nonterminals t ∧ t ≠ [] := by
  induction l with
  | nil => simp
  | cons a l ih =>
    intro t ht
    rcases List.mem_cons.mp ht with rfl | ht
    · exact ⟨h.2.1.1, h.1⟩
    · exact ih h.2.2 t ht

/-- A successful call on a string shorter than `2^31` bytes returns a greedy sequence
whose concatenation is the input. -/
theorem tokenize_with_sets_tokens (hL : s.length < 2147483648) (ts : List Str)
    (h : tokenize_with_sets s terminals nonterminals = some (.tokens ts)) :
    ts.flatten = s ∧ Greedy terminals nonterminals ts := by
  obtain ⟨new, hts, hflat, hg⟩ :=
    tokenizeLoop_tokens s terminals nonterminals hL _ 0 [] ts h
  rw [List.nil_append] at hts
  rw [hts]
  exact ⟨by rw [hflat, List.drop_zero], hg⟩

/-- A call on the concatenation of a greedy sequence, shorter than `2^31` bytes,
returns that sequence. -/
theorem tokenize_with_sets_of_greedy (toks : List Str)
    (hL : toks.flatten.length < 2147483648) (hg : Greedy terminals nonterminals toks) :
    tokenize_with_sets toks.flatten terminals nonterminals = some (.tokens toks) := by
  have := tokenizeLoop_greedy toks.flatten terminals nonterminals hL toks
    toks.flatten.length 0 [] hg (by rw [List.drop_zero]) (by omega)
  rw [List.nil_append] at this
  exact this

theorem greedyScan_prefix (text : Str) (toks : List Str)
    (h : GreedyScan terminals nonterminals text toks) :
    text = toks.flatten ++ text.drop toks.flatten.length := by
  induction toks generalizing text with
  | nil => simp
  | cons t rest ih =>
    obtain ⟨_, hlong, hrest⟩ := h
    have h1 := ih _ hrest
    obtain ⟨u, hu⟩ := hlong.2.1
    rw [List.flatten_cons, List.length_append, ← List.drop_drop, List.append_assoc, ← h1,
      ← hu, List.drop_left]

/-- The scan of a string shorter than `2^31` bytes fails from position `i` on the
remainder `rem` exactly when the greedy scan of the text from `i` on gets stuck in
front of `rem`. -/
theorem tokenizeLoop_error (hL : s.length < 2147483648) (fuel i : Nat)
    (tokens : List Str) (rem : Str) (hf : s.length - i ≤ fuel) :
    tokenizeLoop s terminals nonterminals (toInt32 s.length)
        (maxTokenLen terminals nonterminals (toInt32 s.length)) fuel (i : Int) tokens
          = some (.tokenizationError rem)
      ↔ ∃ new, GreedyScan terminals nonterminals (s.drop i) new
          ∧ i + new.flatten.length < s.length
          ∧ (∀ x, Known terminals nonterminals x → x ≠ [] →
              ¬ x <+: s.drop (i + new.flatten.length))
          ∧ rem = s.drop (i + new.flatten.length) := by
  constructor
  · intro h
    induction fuel generalizing i tokens with
    | zero =>
      by_cases hlt : i < s.length
      · omega
      · rw [tokenizeLoop_stop s terminals nonterminals hL 0 i tokens hlt] at h
        simp at h
    | succ fuel ih =>
      by_cases hlt : i < s.length
      · rw [tokenizeLoop_step s terminals nonterminals hL fuel i tokens hlt] at h
        rcases best_spec s terminals nonterminals hL i with ⟨h1, h2⟩ | ⟨h1, h2⟩
        · rw [h1] at h
          simp only [List.isEmpty_nil, if_true, Option.some.injEq,
            TokenizeResult.tokenizationError.injEq] at h
          exact ⟨[], trivial, by simpa using hlt, by simpa using h2, by simpa using h.symm⟩
        · have hne : ¬ (bestAt s terminals nonterminals i).isEmpty = true := by
            rw [List.isEmpty_iff]
            exact h1
          rw [if_neg hne] at h
          have hlen := h2.2.1.length_le
          rw [List.length_drop] at hlen
          have hpos := List.length_pos.mpr h1
          obtain ⟨new, hscan, hlt2, hstuck, hrem⟩ := ih _ _ (by omega) h
          refine ⟨_ :: new, ⟨h1, h2, ?_⟩, ?_, ?_, ?_⟩
          · rw [List.drop_drop]
            exact hscan
          · rw [List.flatten_cons, List.length_append, ← Nat.add_assoc]
            exact hlt2
          · rw [List.flatten_cons, List.length_append, ← Nat.add_assoc]
            exact hstuck
          · rw [List.flatten_cons, List.length_append, ← Nat.add_assoc]
            exact hrem
      · rw [tokenizeLoop_stop s terminals nonterminals hL _ i tokens hlt] at h
        simp at h
  · rintro ⟨new, hscan, hlt, hstuck, hrem⟩
    induction new generalizing fuel i tokens with
    | nil =>
      simp only [List.flatten_nil, List.length_nil, Nat.add_zero] at hlt hstuck hrem
      obtain ⟨fuel, rfl⟩ : ∃ f, fuel = f + 1 := ⟨fuel - 1, by omega⟩
      rw [tokenizeLoop_step s terminals nonterminals hL fuel i tokens hlt]
      rcases best_spec s terminals nonterminals hL i with ⟨h1, _⟩ | ⟨h1, h2⟩
      · rw [h1, hrem]
        rfl
      · exact absurd h2.2.1 (hstuck _ h2.1 h1)
    | cons t rest ih =>
      obtain ⟨hne, hlong, hrest⟩ := hscan
      rw [List.flatten_cons, List.length_append, ← Nat.add_assoc] at hlt hstuck hrem
      have htpos := List.length_pos.mpr hne
      have hi : i < s.length := by omega
      obtain ⟨fuel, rfl⟩ : ∃ f, fuel = f + 1 := ⟨fuel - 1, by omega⟩
      rw [tokenizeLoop_step s terminals nonterminals hL fuel i tokens hi]
      rcases best_spec s terminals nonterminals hL i with ⟨_, h2⟩ | ⟨h1, h2⟩
      · exact absurd hlong.2.1 (h2 t hlong.1 hne)
      · have hbest : bestAt s terminals nonterminals i = t := by
          have hle1 := hlong.2.2 _ h2.1 h2.2.1
          have hle2 := h2.2.2 t hlong.1 hlong.2.1
          exact (List.prefix_of_prefix_length_le h2.2.1 hlong.2.1 hle1).eq_of_length
            (by omega)
        rw [hbest]
        have hne2 : ¬ t.isEmpty = true := by
          rw [List.isEmpty_iff]
          exact hne
        rw [if_neg hne2]
        rw [List.drop_drop] at hrest
        exact ih fuel (i + t.length) (tokens ++ [t]) (by omega) hrest hlt hstuck hrem

/-! ### Strings of `2^31` bytes and more -/

theorem known_singleton (a x : Str) : Known [a] [] x ↔ x = a := by
  simp [Known]

/-- On `n` copies of a byte, with `(int)n` not positive, the tokenizer returns the
empty token vector. -/
theorem tokenize_with_sets_replicate_nonpos (n : Nat) (c : Byte)
    (h : toInt32 n ≤ 0) :
    tokenize_with_sets (List.replicate n c) terminals nonterminals = some (.tokens []) :=
  tokenize_with_sets_of_nonpos _ terminals nonterminals (by rw [List.length_replicate]; exact h)

/-- Over the alphabet `a`, `n` copies of `a` split into known symbols in one way. -/
theorem replicate_unique_split (n : Nat) (a : Byte) (toks : List Str)
    (hk : ∀ t ∈ toks, Known [[a]] [] t)
    (hflat : toks.flatten = (List.replicate n [a]).flatten) :
    toks = List.replicate n [a] := by
  have h1 : toks = List.replicate toks.length [a] :=
    List.eq_replicate_iff.mpr ⟨rfl, fun t ht => (known_singleton [a] t).mp (hk t ht)⟩
  have h2 := congrArg List.length hflat
  rw [h1, List.flatten_replicate_singleton, List.flatten_replicate_singleton,
    List.length_replicate, List.length_replicate] at h2
  rw [h1, h2]

end Tokenizer

/-! ## Soundness, failure and longest match of the tokenizer -/

/-- Claim C3 as stated fails.  With the terminals `a`, `ab`, `bc` the sequence `a`, `bc`
consists of known non-empty symbols and is the only way to split `abc` into known
symbols, yet the tokenizer takes the longer `ab` first and then fails on `c`.  And with
the terminal `a` alone, the sequence of `2^31` symbols `a` is the only way to split its
concatenation, no longer known symbol competes at any token start, yet the tokenizer,
for which `(int)s.size()` is negative, returns the empty sequence. -/
theorem tokenize_unambiguous_counterexample :
    ((∀ t ∈ [[97], ([98, 99] : Str)], Known [[97], [97, 98], [98, 99]] [] t ∧ t ≠ [])
      ∧ (∀ toks : List Str, (∀ t ∈ toks, Known [[97], [97, 98], [98, 99]] [] t) →
          toks.flatten = [[97], ([98, 99] : Str)].flatten → toks = [[97], [98, 99]])
      ∧ tokenize_with_sets [[97], ([98, 99] : Str)].flatten [[97], [97, 98], [98, 99]] []
          = some (.tokenizationError [99]))
    ∧ ((∀ t ∈ List.replicate 2147483648 ([97] : Str), Known [[97]] [] t ∧ t ≠ [])
      ∧ (∀ toks : List Str, (∀ t ∈ toks, Known [[97]] [] t) →
          toks.flatten = (List.replicate 2147483648 ([97] : Str)).flatten →
          toks = List.replicate 2147483648 [97])
      ∧ (∀ pre t post, List.replicate 2147483648 ([97] : Str) = pre ++ t :: post →
          ∀ x, Known [[97]] [] x → x <+: (t :: post).flatten → x.length ≤ t.length)
      ∧ tokenize_with_sets (List.replicate 2147483648 ([97] : Str)).flatten [[97]] []
          = some (.tokens [])
      ∧ ([] : List Str) ≠ List.replicate 2147483648 [97]) := by
  refine ⟨⟨by decide, ?_, by decide⟩, ?_, ?_, ?_, ?_, ?_⟩
  · intro toks hk hflat
    have hmem : ∀ t ∈ toks, t = [97] ∨ t = [97, 98] ∨ t = [98, 99] := by
      intro t ht
      have := hk t ht
      simpa [Known] using this
    rcases toks with _ | ⟨t1, r1⟩
    · simp at hflat
    rcases hmem t1 (by simp) with rfl | rfl | rfl
    · rcases r1 with _ | ⟨t2, r2⟩
      · simp at hflat
      rcases hmem t2 (by simp) with rfl | rfl | rfl
      · simp at hflat
      · simp at hflat
      · rcases r2 with _ | ⟨t3, r3⟩
        · rfl
        · rcases hmem t3 (by simp) with rfl | rfl | rfl <;> simp at hflat
    · rcases r1 with _ | ⟨t2, r2⟩
      · simp at hflat
      rcases hmem t2 (by simp) with rfl | rfl | rfl <;> simp at hflat
    · simp at hflat
  · intro t ht
    rw [(List.mem_replicate.mp ht).2]
    exact ⟨(known_singleton [97] [97]).mpr rfl, by decide⟩
  · exact fun toks hk hflat => replicate_unique_split 2147483648 97 toks hk hflat
  · intro pre t post hsplit x hx _
    have ht : t ∈ List.replicate 2147483648 ([97] : Str) := by
      rw [hsplit]
      exact List.mem_append_right _ (List.mem_cons_self _ _)
    rw [(List.mem_replicate.mp ht).2, (known_singleton [97] x).mp hx]
  · rw [List.flatten_replicate_singleton]
    exact tokenize_with_sets_replicate_nonpos [[97]] [] 2147483648 97 (by decide)
  · intro h
    have := congrArg List.length h
    rw [List.length_replicate, List.length_nil] at this
    omega

/-- Claim C3, amended (tokenizer soundness): for every alphabet and every sequence of
known non-empty symbols whose concatenation is shorter than `2^31` bytes, (a) if no
known symbol longer than an element of the sequence is a prefix of the text that starts
with that element, the tokenizer applied to the concatenation succeeds and returns
exactly that sequence; (b) if the concatenation can be split into known symbols in
exactly one way, the tokenizer applied to it returns exactly that sequence whenever it
succeeds. -/
theorem tokenize_with_sets_sound (terminals nonterminals : List Str) (toks : List Str)
    (hk : ∀ t ∈ toks, Known terminals nonterminals t ∧ t ≠ [])
    (hlen : toks.flatten.length < 2147483648) :
    ((∀ pre t post, toks = pre ++ t :: post →
        ∀ x, Known terminals nonterminals x → x <+: (t :: post).flatten →
          x.length ≤ t.length) →
      tokenize_with_sets toks.flatten terminals nonterminals = some (.tokens toks))
    ∧ ((∀ other : List Str, (∀ t ∈ other, Known terminals nonterminals t) →
        other.flatten = toks.flatten → other = toks) →
      ∀ ts, tokenize_with_sets toks.flatten terminals nonterminals = some (.tokens ts) →
        ts = toks) := by
  constructor
  · intro hlong
    have hg : Greedy terminals nonterminals toks := by
      clear hlen
      induction toks with
      | nil => trivial
      | cons t rest ih =>
        refine ⟨(hk t (by simp)).2, ⟨(hk t (by simp)).1, List.prefix_append _ _, ?_⟩, ?_⟩
        · intro x hx hpre
          exact hlong [] t rest rfl x hx (by rw [List.flatten_cons]; exact hpre)
        · exact ih (fun u hu => hk u (by simp [hu]))
            (fun pre u post h => hlong (t :: pre) u post (by rw [h]; rfl))
    exact tokenize_with_sets_of_greedy terminals nonterminals toks hlen hg
  · intro huniq ts hts
    obtain ⟨hflat, hg⟩ :=
      tokenize_with_sets_tokens toks.flatten terminals nonterminals hlen ts hts
    exact huniq ts (fun t ht => (hg.known terminals nonterminals t ht).1) hflat

theorem tokenize_with_sets_sound_witness :
    tokenize_with_sets [97, 98, 97] [[97], [97, 98]] [[83]]
      = some (.tokens [[97, 98], [97]]) := by
  refine (tokenize_with_sets_sound [[97], [97, 98]] [[83]] [[97, 98], [97]]
    (by decide) (by decide)).1 ?_
  intro pre t post h x hx hpre
  have hxlen : x.length ≤ 2 := by
    have : (x = [97] ∨ x = [97, 98]) ∨ x = [83] := by simpa [Known] using hx
    rcases this with (rfl | rfl) | rfl <;> simp
  rcases pre with _ | ⟨p, _ | ⟨q, pre⟩⟩
  · simp only [List.nil_append, List.cons.injEq] at h
    rw [← h.1]
    exact hxlen
  · simp only [List.singleton_append, List.cons.injEq] at h
    have h1 := h.2.1
    have h2 := h.2.2
    subst h1
    subst h2
    simpa using hpre.length_le
  · simp at h

/-- Claim C15 as stated fails.  With the empty string as the only known symbol the
tokenizer fails on the raw string `a`, although at every position a known symbol, the
empty one, is a prefix of the remaining text.  And on the raw string of `2^31` bytes `x`
with the terminal `a`, no known symbol is a prefix of the text at position `0`, yet the
tokenizer, for which `(int)s.size()` is negative, does not fail. -/
theorem tokenize_error_location_counterexample :
    (tokenize_with_sets [97] [[]] [] = some (.tokenizationError [97])
      ∧ ∀ i, ∃ x, Known [[]] [] x ∧ x <+: ([97] : Str).drop i)
    ∧ (0 < (List.replicate 2147483648 (120 : Byte)).length
      ∧ (∀ x, Known [[97]] [] x → ¬ x <+: (List.replicate 2147483648 (120 : Byte)).drop 0)
      ∧ tokenize_with_sets (List.replicate 2147483648 120) [[97]] []
          = some (.tokens [])) := by
  refine ⟨⟨by decide, fun _ => ⟨[], by decide, List.nil_prefix⟩⟩, ?_, ?_,
    tokenize_with_sets_replicate_nonpos [[97]] [] 2147483648 120 (by decide)⟩
  · rw [List.length_replicate]
    omega
  · intro x hx hpre
    rw [(known_singleton [97] x).mp hx, List.drop_zero] at hpre
    have h : ([97] : Str) <+: List.replicate (2147483647 + 1) 120 := hpre
    rw [List.replicate_succ] at h
    obtain ⟨u, hu⟩ := h
    simp only [List.singleton_append, List.cons.injEq] at hu
    exact absurd hu.1 (by decide)

/-- Claim C15, amended (tokenizer error location): on a raw string of fewer than `2^31`
bytes the tokenizer fails exactly when its left-to-right greedy scan reaches a position
`i < |raw|` at which no non-empty known symbol is a prefix of the remaining text; the
error then carries exactly that non-empty remainder `raw[i..]`, and `raw[0..i)` is the
concatenation of the tokens matched so far. -/
theorem tokenize_with_sets_error_iff (raw : Str) (terminals nonterminals : List Str)
    (rem : Str) (hlen : raw.length < 2147483648) :
    tokenize_with_sets raw terminals nonterminals = some (.tokenizationError rem)
      ↔ ∃ toks : List Str, GreedyScan terminals nonterminals raw toks
          ∧ toks.flatten.length < raw.length
          ∧ raw.take toks.flatten.length = toks.flatten
          ∧ (∀ x, Known terminals nonterminals x → x ≠ [] →
              ¬ x <+: raw.drop toks.flatten.length)
          ∧ rem = raw.drop toks.flatten.length ∧ rem ≠ [] := by
  refine Iff.trans
    (tokenizeLoop_error raw terminals nonterminals hlen raw.length 0 [] rem (by omega)) ?_
  simp only [List.drop_zero, Nat.zero_add]
  constructor
  · rintro ⟨toks, hscan, hlt, hstuck, hrem⟩
    refine ⟨toks, hscan, hlt, ?_, hstuck, hrem, ?_⟩
    · have h := greedyScan_prefix terminals nonterminals raw toks hscan
      conv_lhs => rw [h]
      rw [List.take_left]
    · rw [hrem]
      intro h
      have := congrArg List.length h
      rw [List.length_drop, List.length_nil] at this
      omega
  · rintro ⟨toks, hscan, hlt, _, hstuck, hrem, _⟩
    exact ⟨toks, hscan, hlt, hstuck, hrem⟩

theorem tokenize_with_sets_error_iff_witness :
    tokenize_with_sets [97, 98, 99] [[97], [97, 98], [98, 99]] []
      = some (.tokenizationError [99]) := by
  have hknown : ∀ x, Known [[97], [97, 98], [98, 99]] [] x →
      x = [97] ∨ x = [97, 98] ∨ x = [98, 99] := by
    intro x hx
    simpa [Known] using hx
  refine (tokenize_with_sets_error_iff [97, 98, 99] [[97], [97, 98], [98, 99]] []
    [99] (by decide)).mpr ⟨[[97, 98]], ⟨by decide, ⟨by decide, by decide, ?_⟩, trivial⟩,
      by decide, by decide, ?_, by decide, by decide⟩
  · intro x hx _
    rcases hknown x hx with rfl | rfl | rfl <;> simp
  · intro x hx _ hpre
    rcases hknown x hx with rfl | rfl | rfl <;> revert hpre <;> decide

/-! ## The key of a form decides equality -/

/-- Claim C20 (canonical key): for two sentential forms none of whose symbols contains
the separator byte `0x1F`, `encodeForm` yields equal keys exactly when the forms are
equal as symbol sequences. -/
theorem encodeForm_eq_iff (f g : Form) (hf : SeparatorFreeForm f)
    (hg : SeparatorFreeForm g) : encodeForm f = encodeForm g ↔ f = g :=
  ⟨encodeForm_injective f g hf hg, fun h => by rw [h]⟩

theorem encodeForm_eq_iff_witness :
    (encodeForm [[97], [98]] = encodeForm [[97, 98]] ↔ [[97], ([98] : Str)] = [[97, 98]])
      ∧ encodeForm [[97], [98]] = [0x1F, 97, 0x1F, 98] :=
  ⟨encodeForm_eq_iff [[97], [98]] [[97, 98]] (by decide) (by decide), by decide⟩

/-! ## Terminal content along rule applications -/

theorem totalTerminalBytes_eq_zero (terminals : List Str) (f : Form)
    (h : ∀ tk ∈ f, tk ∉ terminals) : totalTerminalBytes terminals f = 0 := by
  induction f with
  | nil => rfl
  | cons tk rest ih =>
    rw [← List.singleton_append, totalTerminalBytes_append,
      ih (fun x hx => h x (by simp [hx]))]
    simp [totalTerminalBytes_eq, h tk (by simp)]

/-- A rule application whose left-hand side holds no terminal keeps all terminals of
the form. -/
theorem step_totalTerminalBytes_le (terminals : List Str) (productions : List Production)
    (hlhs : ∀ p ∈ productions, ∀ tk ∈ p.lhs, tk ∉ terminals) (f g : Form)
    (h : Step productions f g) :
    totalTerminalBytes terminals f ≤ totalTerminalBytes terminals g := by
  obtain ⟨p, hp, u, v, rfl, rfl⟩ := h
  simp only [totalTerminalBytes_append]
  rw [totalTerminalBytes_eq_zero terminals p.lhs (hlhs p hp)]
  omega

theorem derives_totalTerminalBytes_le (terminals : List Str) (productions : List Production)
    (hlhs : ∀ p ∈ productions, ∀ tk ∈ p.lhs, tk ∉ terminals) (f g : Form)
    (h : Derives productions f g) :
    totalTerminalBytes terminals f ≤ totalTerminalBytes terminals g := by
  induction h with
  | refl => exact le_refl _
  | tail _ hstep ih =>
    exact le_trans ih (step_totalTerminalBytes_le terminals productions hlhs _ _ hstep)

/-- Claim C14 as stated fails.  With terminals `a`, `b` and the production `a a -> b`,
whose left-hand side is not empty, one rule application takes the form `a a` of terminal
byte-length 2 to the form `b` of terminal byte-length 1; and `a a`, which is over the
byte-length of the target `b`, is rewritten into the form of terminals spelling it. -/
theorem totalTerminalBytes_step_counterexample :
    (∀ p ∈ [(⟨[[97], [97]], [[98]]⟩ : Production)], p.lhs ≠ [])
    ∧ Step [⟨[[97], [97]], [[98]]⟩] [[97], [97]] [[98]]
    ∧ totalTerminalBytes [[97], [98]] [[98]] < totalTerminalBytes [[97], [98]] [[97], [97]]
    ∧ totalTerminalBytes [[97], [98]] [[97], [97]] > ([98] : Str).length
    ∧ Derives [⟨[[97], [97]], [[98]]⟩] [[97], [97]] [[98]]
    ∧ (∀ tk ∈ [([98] : Str)], tk ∈ [[97], ([98] : Str)])
    ∧ [([98] : Str)].flatten = [98] := by
  have hstep : Step [⟨[[97], [97]], [[98]]⟩] [[97], [97]] [[98]] :=
    ⟨⟨[[97], [97]], [[98]]⟩, by simp, [], [], rfl, rfl⟩
  exact ⟨by decide, hstep, by decide, by decide,
    Relation.ReflTransGen.single hstep, by decide, by decide⟩

/-- Claim C14, amended (terminal content only grows when left-hand sides hold no
terminal): if no symbol of a left-hand side is a terminal, then every form `g` obtained
from a form `f` by one rule application has terminal byte-length at least that of `f`;
hence a form whose terminal byte-length exceeds the byte-length of the target can never
be rewritten, in any number of rule applications, into a form of terminals spelling the
target. -/
theorem totalTerminalBytes_step_mono (terminals : List Str) (productions : List Production)
    (hlhs : ∀ p ∈ productions, ∀ tk ∈ p.lhs, tk ∉ terminals) (f : Form) :
    (∀ g, Step productions f g →
        totalTerminalBytes terminals f ≤ totalTerminalBytes terminals g)
      ∧ ∀ word : Str, totalTerminalBytes terminals f > word.length →
          ∀ g, Derives productions f g → (∀ tk ∈ g, tk ∈ terminals) → g.flatten ≠ word := by
  refine ⟨fun g h => step_totalTerminalBytes_le terminals productions hlhs f g h, ?_⟩
  intro word hover g hd hall hspell
  have h1 := derives_totalTerminalBytes_le terminals productions hlhs f g hd
  rw [totalTerminalBytes_of_allTerminals terminals g hall, hspell] at h1
  omega

theorem totalTerminalBytes_step_mono_witness :
    totalTerminalBytes [[97], [98]] [[97], [83], [98]]
      ≤ totalTerminalBytes [[97], [98]] [[97], [97], [83], [98], [98]] :=
  (totalTerminalBytes_step_mono [[97], [98]] anbnProductions (by decide)
    [[97], [83], [98]]).1 [[97], [97], [83], [98], [98]]
    ⟨⟨[[83]], [[97], [83], [98]]⟩, by simp [anbnProductions], [[97]], [[98]], rfl, rfl⟩

/-! ## What the search decides -/

/-- A target reported as found is derivable by a chain the search can follow. -/
theorem searchOutcome_found_chain (word : Str) (terminals nonterminals : List Str)
    (productions : List Production) (start : Str)
    (h : searchOutcome word terminals nonterminals productions start = some .found) :
    SearchDerivable word terminals productions start := by
  exact (searchOutcome_invariant word terminals nonterminals productions start
    (Relation.ReflTransGen (SearchStep word terminals productions) [start])
    Relation.ReflTransGen.refl
    (fun _ _ hf hb hnt hstep hgb => Relation.ReflTransGen.tail hf ⟨hstep, hb, hnt, hgb⟩)
    _ h).1 rfl

/-- With left-hand sides that are not empty and hold no terminal, every derivation of
the target is a chain the search can follow. -/
theorem searchDerivable_of_derivable (word : Str) (terminals : List Str)
    (productions : List Production) (start : Str)
    (hlhs : ∀ p ∈ productions, p.lhs ≠ [] ∧ ∀ tk ∈ p.lhs, tk ∉ terminals)
    (h : Derivable word terminals productions start) :
    SearchDerivable word terminals productions start := by
  obtain ⟨f, hd, hall, hspell⟩ := h
  refine ⟨f, ?_, hall, hspell⟩
  have hlen : totalTerminalBytes terminals f ≤ word.length := by
    rw [totalTerminalBytes_of_allTerminals terminals f hall, hspell]
  clear hall hspell
  induction hd with
  | refl => exact Relation.ReflTransGen.refl
  | tail _ hstep ih =>
    have hle := step_totalTerminalBytes_le terminals productions
      (fun p hp => (hlhs p hp).2) _ _ hstep
    refine Relation.ReflTransGen.tail (ih (by omega)) ⟨hstep, by omega, ?_, hlen⟩
    obtain ⟨p, hp, u, v, rfl, _⟩ := hstep
    obtain ⟨tk, htk⟩ := List.exists_mem_of_ne_nil _ (hlhs p hp).1
    exact ⟨tk, by simp [htk], (hlhs p hp).2 tk htk⟩

theorem searchDerivable_derivable (word : Str) (terminals : List Str)
    (productions : List Production) (start : Str)
    (h : SearchDerivable word terminals productions start) :
    Derivable word terminals productions start := by
  obtain ⟨f, hd, hall, hspell⟩ := h
  exact ⟨f, Relation.ReflTransGen.mono (fun _ _ hs => hs.1) hd, hall, hspell⟩

/-- Whether a chain the search can follow exists depends on the productions as a set. -/
theorem searchDerivable_of_subset (word : Str) (terminals : List Str)
    (ps qs : List Production) (start : Str) (hsub : ∀ p ∈ ps, p ∈ qs)
    (h : SearchDerivable word terminals ps start) :
    SearchDerivable word terminals qs start := by
  obtain ⟨f, hd, hall, hspell⟩ := h
  refine ⟨f, Relation.ReflTransGen.mono ?_ hd, hall, hspell⟩
  rintro a b ⟨⟨p, hp, u, v, ha, hb⟩, h2, h3, h4⟩
  exact ⟨⟨p, hsub p hp, u, v, ha, hb⟩, h2, h3, h4⟩

/-- Claim C19 (exact characterisation of the search): if the start symbol and the
right-hand sides do not contain the byte `0x1F` and the run does not reach the
seen-state cap, `checkWord` returns `true` exactly when a chain of rule applications
leads from `[start]` to a form of terminals spelling the target, every form of the
chain having terminal byte-length at most the byte-length of the target and every form
before the last having a symbol that is not a terminal. -/
theorem checkWord_iff_searchDerivable (word : Str) (terminals nonterminals : List Str)
    (productions : List Production) (start : Str)
    (hsep : SeparatorFree productions start)
    (hcap : searchOutcome word terminals nonterminals productions start
      ≠ some .limitReached) :
    checkWord word terminals nonterminals productions start = true
      ↔ SearchDerivable word terminals productions start := by
  rw [checkWord_eq_true_iff]
  constructor
  · exact searchOutcome_found_chain word terminals nonterminals productions start
  · intro hd
    exact searchOutcome_complete word terminals nonterminals productions start hsep hd hcap

theorem checkWord_iff_searchDerivable_witness :
    (checkWord [97, 97, 98] [[97], [98]] [[83]] anbnProductions [83] = true
        ↔ SearchDerivable [97, 97, 98] [[97], [98]] anbnProductions [83])
      ∧ checkWord [97, 97, 98] [[97], [98]] [[83]] anbnProductions [83] = false :=
  ⟨checkWord_iff_searchDerivable [97, 97, 98] [[97], [98]] [[83]] anbnProductions [83]
    (by decide) (by decide), by decide⟩

/-- Claim C18 (completeness for terminal-free left-hand sides): if every production has
a non-empty left-hand side none of whose symbols is a terminal, the start symbol and the
right-hand sides do not contain the byte `0x1F`, and the run does not reach the
seen-state cap, then `checkWord` returns `true` exactly when the target is derivable:
some chain of rule applications leads from `[start]` to a form of terminals spelling
the target. -/
theorem checkWord_iff_derivable (word : Str) (terminals nonterminals : List Str)
    (productions : List Production) (start : Str)
    (hlhs : ∀ p ∈ productions, p.lhs ≠ [] ∧ ∀ tk ∈ p.lhs, tk ∉ terminals)
    (hsep : SeparatorFree productions start)
    (hcap : searchOutcome word terminals nonterminals productions start
      ≠ some .limitReached) :
    checkWord word terminals nonterminals productions start = true
      ↔ Derivable word terminals productions start := by
  rw [checkWord_eq_true_iff]
  constructor
  · intro h
    exact searchDerivable_derivable word terminals productions start
      (searchOutcome_found_chain word terminals nonterminals productions start h)
  · intro hd
    exact searchOutcome_complete word terminals nonterminals productions start hsep
      (searchDerivable_of_derivable word terminals productions start hlhs hd) hcap

theorem checkWord_iff_derivable_witness :
    (checkWord [97, 97, 98] [[97], [98]] [[83]] anbnProductions [83] = true
        ↔ Derivable [97, 97, 98] [[97], [98]] anbnProductions [83])
      ∧ ¬ Derivable [97, 97, 98] [[97], [98]] anbnProductions [83] := by
  have h := checkWord_iff_derivable [97, 97, 98] [[97], [98]] [[83]] anbnProductions [83]
    (by decide) (by decide) (by decide)
  refine ⟨h, fun hd => ?_⟩
  have hfalse : checkWord [97, 97, 98] [[97], [98]] [[83]] anbnProductions [83] = false := by
    decide
  rw [h.mpr hd] at hfalse
  exact absurd hfalse (by decide)

/-- Claim C13 (order independence): if the start symbol and the right-hand sides do not
contain the byte `0x1F`, then for every target and every permutation of the production
list `checkWord` returns the same verdict on both lists whenever neither run reaches
the seen-state cap. -/
theorem checkWord_perm (word : Str) (terminals nonterminals : List Str)
    (productions permuted : List Production) (start : Str)
    (hperm : productions.Perm permuted)
    (hsep : SeparatorFree productions start)
    (hcap : searchOutcome word terminals nonterminals productions start
      ≠ some .limitReached)
    (hcap2 : searchOutcome word terminals nonterminals permuted start
      ≠ some .limitReached) :
    checkWord word terminals nonterminals productions start
      = checkWord word terminals nonterminals permuted start := by
  have hsep2 : SeparatorFree permuted start :=
    ⟨hsep.1, fun p hp => hsep.2 p (hperm.mem_iff.mpr hp)⟩
  have hiff : checkWord word terminals nonterminals productions start = true
      ↔ checkWord word terminals nonterminals permuted start = true := by
    rw [checkWord_eq_true_iff, checkWord_eq_true_iff]
    constructor
    · intro h
      exact searchOutcome_complete word terminals nonterminals permuted start hsep2
        (searchDerivable_of_subset word terminals productions permuted start
          (fun p hp => hperm.mem_iff.mp hp)
          (searchOutcome_found_chain word terminals nonterminals productions start h)) hcap2
    · intro h
      exact searchOutcome_complete word terminals nonterminals productions start hsep
        (searchDerivable_of_subset word terminals permuted productions start
          (fun p hp => hperm.mem_iff.mpr hp)
          (searchOutcome_found_chain word terminals nonterminals permuted start h)) hcap
  exact Bool.eq_iff_iff.mpr hiff

theorem checkWord_perm_witness :
    checkWord [97, 98] [[97], [98]] [[83]]
        [⟨[[83]], [[97], [83], [98]]⟩, ⟨[[83]], []⟩] [83]
      = checkWord [97, 98] [[97], [98]] [[83]]
        [⟨[[83]], []⟩, ⟨[[83]], [[97], [83], [98]]⟩] [83] :=
  checkWord_perm [97, 98] [[97], [98]] [[83]]
    [⟨[[83]], [[97], [83], [98]]⟩, ⟨[[83]], []⟩]
    [⟨[[83]], []⟩, ⟨[[83]], [[97], [83], [98]]⟩] [83]
    (List.Perm.swap _ _ _) (by decide) (by decide) (by decide)

/-! ## The record of the queue and the visited set -/

section History

variable (word : Str) (terminals : List Str) (productions : List Production) (cur : Form)

theorem tryPosHist_fst (prod : Production) (st : SearchState) (hist : List Snapshot)
    (pos : Nat) :
    (tryPosHist word terminals cur prod st hist pos).1
      = tryPos word terminals cur prod st pos := by
  unfold tryPosHist tryPos
  split
  · simp only []
    split
    · rfl
    · split <;> rfl
  · rfl

theorem tryPositionsHist_fst (prod : Production) (ps : List Nat) (st : SearchState)
    (hist : List Snapshot) :
    (tryPositionsHist word terminals cur prod ps st hist).1
      = tryPositions word terminals cur prod ps st := by
  induction ps generalizing st hist with
  | nil => rfl
  | cons pos rest ih =>
    unfold tryPositionsHist tryPositions
    rw [← tryPosHist_fst word terminals cur prod st hist pos]
    rcases tryPosHist word terminals cur prod st hist pos with ⟨_ | st2, h2⟩
    · rfl
    · exact ih st2 h2

theorem expandHist_fst (ps : List Production) (st : SearchState) (hist : List Snapshot) :
    (expandHist word terminals cur ps st hist).1 = expand word terminals cur ps st := by
  induction ps generalizing st hist with
  | nil => rfl
  | cons prod rest ih =>
    unfold expandHist expand
    rw [← tryPositionsHist_fst word terminals cur prod (positions cur prod) st hist]
    rcases tryPositionsHist word terminals cur prod (positions cur prod) st hist
      with ⟨_ | st2, h2⟩
    · rfl
    · exact ih st2 h2

theorem bfsHist_fst (fuel : Nat) (st : SearchState) (hist : List Snapshot) :
    (bfsHist word terminals productions fuel st hist).map Prod.fst
      = bfs word terminals productions fuel st := by
  induction fuel generalizing st hist with
  | zero => rfl
  | succ fuel ih =>
    obtain ⟨q, vis⟩ := st
    cases q with
    | nil => rfl
    | cons c rest =>
      rw [bfs_cons]
      unfold bfsHist
      simp only []
      split
      · exact ih _ _
      · split
        · split
          · rfl
          · exact ih _ _
        · rw [← expandHist_fst word terminals c productions ⟨rest, vis⟩
            (hist ++ [⟨none, ⟨rest, vis⟩⟩])]
          generalize expandHist word terminals c productions ⟨rest, vis⟩
            (hist ++ [⟨none, ⟨rest, vis⟩⟩]) = r
          obtain ⟨_ | st2, h2⟩ := r
          · rfl
          · exact ih _ _

/-- A step that pushes `next`: the state and the record after it. -/
theorem tryPosHist_inv (J : List Snapshot → SearchState → Prop)
    (hpush : ∀ hist st next, J hist st → st.visited.length ≤ MAX_VISITED →
      encodeForm next ∉ st.visited →
      J (hist ++ [⟨some next, ⟨st.queue ++ [next], encodeForm next :: st.visited⟩⟩])
        ⟨st.queue ++ [next], encodeForm next :: st.visited⟩)
    (prod : Production) (st : SearchState) (hist : List Snapshot) (pos : Nat)
    (hJ : J hist st) (hlen : st.visited.length ≤ MAX_VISITED) :
    ∃ st2, J (tryPosHist word terminals cur prod st hist pos).2 st2
      ∧ (((tryPosHist word terminals cur prod st hist pos).1 = some st2
          ∧ st2.visited.length ≤ MAX_VISITED)
        ∨ ((tryPosHist word terminals cur prod st hist pos).1 = none
          ∧ st2.visited.length > MAX_VISITED)) := by
  unfold tryPosHist
  by_cases hm : lhsMatches cur prod.lhs pos = true
  · rw [if_pos hm]
    simp only []
    by_cases hb : totalTerminalBytes terminals (buildNext cur prod pos) > word.length
    · rw [if_pos hb]
      exact ⟨st, hJ, Or.inl ⟨rfl, hlen⟩⟩
    · rw [if_neg hb]
      by_cases hk : encodeForm (buildNext cur prod pos) ∈ st.visited
      · rw [if_pos hk, if_neg (by omega)]
        exact ⟨st, hJ, Or.inl ⟨rfl, hlen⟩⟩
      · rw [if_neg hk]
        refine ⟨⟨st.queue ++ [buildNext cur prod pos],
          encodeForm (buildNext cur prod pos) :: st.visited⟩,
          hpush hist st _ hJ hlen hk, ?_⟩
        by_cases hl : (encodeForm (buildNext cur prod pos) :: st.visited).length > MAX_VISITED
        · right
          exact ⟨by rw [if_pos hl], hl⟩
        · left
          exact ⟨by rw [if_neg hl], Nat.le_of_not_lt hl⟩
  · rw [if_neg hm]
    exact ⟨st, hJ, Or.inl ⟨rfl, hlen⟩⟩

theorem tryPositionsHist_inv (J : List Snapshot → SearchState → Prop)
    (hpush : ∀ hist st next, J hist st → st.visited.length ≤ MAX_VISITED →
      encodeForm next ∉ st.visited →
      J (hist ++ [⟨some next, ⟨st.queue ++ [next], encodeForm next :: st.visited⟩⟩])
        ⟨st.queue ++ [next], encodeForm next :: st.visited⟩)
    (prod : Production) (ps : List Nat) (st : SearchState) (hist : List Snapshot)
    (hJ : J hist st) (hlen : st.visited.length ≤ MAX_VISITED) :
    ∃ st2, J (tryPositionsHist word terminals cur prod ps st hist).2 st2
      ∧ (((tryPositionsHist word terminals cur prod ps st hist).1 = some st2
          ∧ st2.visited.length ≤ MAX_VISITED)
        ∨ ((tryPositionsHist word terminals cur prod ps st hist).1 = none
          ∧ st2.visited.length > MAX_VISITED)) := by
  induction ps generalizing st hist with
  | nil => exact ⟨st, hJ, Or.inl ⟨rfl, hlen⟩⟩
  | cons pos rest ih =>
    unfold tryPositionsHist
    obtain ⟨st1, hJ1, h1⟩ := tryPosHist_inv word terminals cur J hpush prod st hist pos hJ hlen
    generalize tryPosHist word terminals cur prod st hist pos = r at hJ1 h1
    obtain ⟨a, h⟩ := r
    rcases h1 with ⟨ha, hl⟩ | ⟨ha, hl⟩
    · simp only [] at ha hJ1
      subst ha
      exact ih st1 h hJ1 hl
    · simp only [] at ha hJ1
      subst ha
      exact ⟨st1, hJ1, Or.inr ⟨rfl, hl⟩⟩

theorem expandHist_inv (J : List Snapshot → SearchState → Prop)
    (hpush : ∀ hist st next, J hist st → st.visited.length ≤ MAX_VISITED →
      encodeForm next ∉ st.visited →
      J (hist ++ [⟨some next, ⟨st.queue ++ [next], encodeForm next :: st.visited⟩⟩])
        ⟨st.queue ++ [next], encodeForm next :: st.visited⟩)
    (ps : List Production) (st : SearchState) (hist : List Snapshot)
    (hJ : J hist st) (hlen : st.visited.length ≤ MAX_VISITED) :
    ∃ st2, J (expandHist word terminals cur ps st hist).2 st2
      ∧ (((expandHist word terminals cur ps st hist).1 = some st2
          ∧ st2.visited.length ≤ MAX_VISITED)
        ∨ ((expandHist word terminals cur ps st hist).1 = none
          ∧ st2.visited.length > MAX_VISITED)) := by
  induction ps generalizing st hist with
  | nil => exact ⟨st, hJ, Or.inl ⟨rfl, hlen⟩⟩
  | cons prod rest ih =>
    unfold expandHist
    obtain ⟨st1, hJ1, h1⟩ := tryPositionsHist_inv word terminals cur J hpush prod
      (positions cur prod) st hist hJ hlen
    generalize tryPositionsHist word terminals cur prod (positions cur prod) st hist = r
      at hJ1 h1
    obtain ⟨a, h⟩ := r
    rcases h1 with ⟨ha, hl⟩ | ⟨ha, hl⟩
    · simp only [] at ha hJ1
      subst ha
      exact ih st1 h hJ1 hl
    · simp only [] at ha hJ1
      subst ha
      exact ⟨st1, hJ1, Or.inr ⟨rfl, hl⟩⟩

/-- A property of the record and the current state that is kept by every pop and every
push holds when the run ends; the visited set then has more than `MAX_VISITED` keys
exactly when the run ended at the state cap. -/
theorem bfsHist_inv (J : List Snapshot → SearchState → Prop)
    (hpush : ∀ hist st next, J hist st → st.visited.length ≤ MAX_VISITED →
      encodeForm next ∉ st.visited →
      J (hist ++ [⟨some next, ⟨st.queue ++ [next], encodeForm next :: st.visited⟩⟩])
        ⟨st.queue ++ [next], encodeForm next :: st.visited⟩)
    (hpop : ∀ hist c rest vis, J hist ⟨c :: rest, vis⟩ → vis.length ≤ MAX_VISITED →
      J (hist ++ [⟨none, ⟨rest, vis⟩⟩]) ⟨rest, vis⟩)
    (fuel : Nat) (st : SearchState) (hist : List Snapshot) (o : Outcome)
    (hist2 : List Snapshot) (hJ : J hist st) (hlen : st.visited.length ≤ MAX_VISITED)
    (h : bfsHist word terminals productions fuel st hist = some (o, hist2)) :
    ∃ st2, J hist2 st2
      ∧ (o = .limitReached → st2.visited.length > MAX_VISITED)
      ∧ (o ≠ .limitReached → st2.visited.length ≤ MAX_VISITED) := by
  induction fuel generalizing st hist with
  | zero => simp [bfsHist] at h
  | succ fuel ih =>
    obtain ⟨q, vis⟩ := st
    cases q with
    | nil =>
      simp only [bfsHist, Option.some.injEq, Prod.mk.injEq] at h
      obtain ⟨rfl, rfl⟩ := h
      exact ⟨_, hJ, by simp, fun _ => hlen⟩
    | cons c rest =>
      have hJ1 := hpop hist c rest vis hJ hlen
      unfold bfsHist at h
      simp only [] at h
      split at h
      · exact ih _ _ hJ1 hlen h
      · split at h
        · split at h
          · simp only [Option.some.injEq, Prod.mk.injEq] at h
            obtain ⟨rfl, rfl⟩ := h
            exact ⟨_, hJ1, by simp, fun _ => hlen⟩
          · exact ih _ _ hJ1 hlen h
        · obtain ⟨st1, hJ2, h1⟩ := expandHist_inv word terminals c J hpush productions
            ⟨rest, vis⟩ (hist ++ [⟨none, ⟨rest, vis⟩⟩]) hJ1 hlen
          generalize expandHist word terminals c productions ⟨rest, vis⟩
            (hist ++ [⟨none, ⟨rest, vis⟩⟩]) = r at hJ2 h1 h
          obtain ⟨a, hh⟩ := r
          rcases h1 with ⟨ha, hl⟩ | ⟨ha, hl⟩
          · simp only [] at ha hJ2
            subst ha
            simp only [] at h
            exact ih st1 hh hJ2 hl h
          · simp only [] at ha hJ2
            subst ha
            simp only [Option.some.injEq, Prod.mk.injEq] at h
            obtain ⟨rfl, rfl⟩ := h
            exact ⟨st1, hJ2, fun _ => hl, fun hne => absurd rfl hne⟩

end History

/-! ## Deduplication and the state cap -/

/-- Every run has a record, and the record has the outcome of the run. -/
theorem searchHistory_some (word : Str) (terminals nonterminals : List Str)
    (productions : List Production) (start : Str) :
    ∃ o hist, searchHistory word terminals nonterminals productions start = some (o, hist)
      ∧ searchOutcome word terminals nonterminals productions start = some o := by
  obtain ⟨o, ho⟩ := bfs_fuel word terminals productions start
  have hfst := bfsHist_fst word terminals productions (MAX_VISITED + 1) (initState start)
    [⟨some [start], initState start⟩]
  rw [ho] at hfst
  unfold searchHistory
  generalize bfsHist word terminals productions (MAX_VISITED + 1) (initState start)
    [⟨some [start], initState start⟩] = r at hfst
  cases r with
  | none => simp at hfst
  | some r =>
    obtain ⟨o2, hist⟩ := r
    simp only [Option.map_some', Option.some.injEq] at hfst
    subst hfst
    exact ⟨o2, hist, rfl, ho⟩

theorem initState_visited_length (start : Str) :
    (initState start).visited.length ≤ MAX_VISITED := by
  show [encodeForm [start]].length ≤ MAX_VISITED
  rw [List.length_singleton]
  unfold MAX_VISITED
  omega

/-- Claim C11 (seen-set dedup): in every run of `checkWord` the forms pushed onto the
queue, the start form first, are pairwise different, so no form is pushed more than
once; and after every pop and every push each form in the queue has its key in the
visited set. -/
theorem checkWord_dedup (word : Str) (terminals nonterminals : List Str)
    (productions : List Production) (start : Str) :
    ∃ o hist, searchHistory word terminals nonterminals productions start = some (o, hist)
      ∧ searchOutcome word terminals nonterminals productions start = some o
      ∧ (pushedForms hist).head? = some [start]
      ∧ (pushedForms hist).Nodup
      ∧ ∀ s ∈ hist, ∀ f ∈ s.state.queue, encodeForm f ∈ s.state.visited := by
  obtain ⟨o, hist, hrun, hout⟩ :=
    searchHistory_some word terminals nonterminals productions start
  refine ⟨o, hist, hrun, hout, ?_⟩
  obtain ⟨st2, ⟨hhead, hnd, _, _, hsnap⟩, _⟩ := bfsHist_inv word terminals productions
    (fun hist st =>
      (pushedForms hist).head? = some [start]
      ∧ ((pushedForms hist).map encodeForm).Nodup
      ∧ (∀ f ∈ pushedForms hist, encodeForm f ∈ st.visited)
      ∧ (∀ f ∈ st.queue, encodeForm f ∈ st.visited)
      ∧ ∀ s ∈ hist, ∀ f ∈ s.state.queue, encodeForm f ∈ s.state.visited)
    (by
      rintro hist st next ⟨h1, h2, h3, h4, h5⟩ _ hk
      have hp : pushedForms (hist ++ [⟨some next, ⟨st.queue ++ [next],
          encodeForm next :: st.visited⟩⟩]) = pushedForms hist ++ [next] := by
        simp [pushedForms, List.filterMap_append]
      have hq : ∀ f ∈ st.queue ++ [next], encodeForm f ∈ encodeForm next :: st.visited := by
        intro f hf
        rcases List.mem_append.mp hf with hf | hf
        · exact List.mem_cons_of_mem _ (h4 f hf)
        · rw [List.mem_singleton] at hf
          rw [hf]
          exact List.mem_cons_self _ _
      refine ⟨?_, ?_, ?_, hq, ?_⟩
      · rw [hp]
        cases hpf : pushedForms hist with
        | nil => rw [hpf] at h1; simp at h1
        | cons a l => rw [hpf] at h1; simpa using h1
      · rw [hp, List.map_append, List.nodup_append]
        refine ⟨h2, by simp, ?_⟩
        intro key hk1 hk2
        simp only [List.map_cons, List.map_nil, List.mem_singleton] at hk2
        obtain ⟨f, hf, rfl⟩ := List.mem_map.mp hk1
        exact hk (hk2 ▸ h3 f hf)
      · intro f hf
        rw [hp] at hf
        rcases List.mem_append.mp hf with hf | hf
        · exact List.mem_cons_of_mem _ (h3 f hf)
        · rw [List.mem_singleton] at hf
          rw [hf]
          exact List.mem_cons_self _ _
      · intro s hs
        rcases List.mem_append.mp hs with hs | hs
        · exact h5 s hs
        · rw [List.mem_singleton] at hs
          rw [hs]
          exact hq)
    (by
      rintro hist c rest vis ⟨h1, h2, h3, h4, h5⟩ _
      have hp : pushedForms (hist ++ [⟨none, ⟨rest, vis⟩⟩]) = pushedForms hist := by
        simp [pushedForms, List.filterMap_append]
      have hq : ∀ f ∈ rest, encodeForm f ∈ vis := fun f hf => h4 f (List.mem_cons_of_mem _ hf)
      refine ⟨by rw [hp]; exact h1, by rw [hp]; exact h2, by rw [hp]; exact h3, hq, ?_⟩
      intro s hs
      rcases List.mem_append.mp hs with hs | hs
      · exact h5 s hs
      · rw [List.mem_singleton] at hs
        rw [hs]
        exact hq)
    (MAX_VISITED + 1) (initState start) [⟨some [start], initState start⟩] o hist
    (by
      refine ⟨rfl, by simp [pushedForms], ?_, ?_, ?_⟩
      · intro f hf
        simp only [pushedForms, List.filterMap_cons, List.filterMap_nil,
          List.mem_singleton] at hf
        rw [hf]
        simp [initState]
      · intro f hf
        simp only [initState, List.mem_singleton] at hf
        rw [hf]
        simp [initState]
      · intro s hs f hf
        rw [List.mem_singleton] at hs
        rw [hs] at hf ⊢
        simp only [initState, List.mem_singleton] at hf
        rw [hf]
        simp [initState])
    (initState_visited_length start) hrun
  exact ⟨hhead, List.Nodup.of_map _ hnd, hsnap⟩

theorem checkWord_dedup_witness :
    (pushedForms [⟨some [[83]], ⟨[[[83]]], [[0x1F, 83]]⟩⟩,
        ⟨none, ⟨[], [[0x1F, 83]]⟩⟩,
        ⟨some [[97]], ⟨[[[97]]], [[0x1F, 97], [0x1F, 83]]⟩⟩,
        ⟨none, ⟨[], [[0x1F, 97], [0x1F, 83]]⟩⟩]).Nodup := by
  obtain ⟨o, hist, hrun, _, _, hnd, _⟩ :=
    checkWord_dedup [97] [[97]] [[83]] [⟨[[83]], [[97]]⟩] [83]
  have h : searchHistory [97] [[97]] [[83]] [⟨[[83]], [[97]]⟩] [83]
      = some (.found, [⟨some [[83]], ⟨[[[83]]], [[0x1F, 83]]⟩⟩,
          ⟨none, ⟨[], [[0x1F, 83]]⟩⟩,
          ⟨some [[97]], ⟨[[[97]]], [[0x1F, 97], [0x1F, 83]]⟩⟩,
          ⟨none, ⟨[], [[0x1F, 97], [0x1F, 83]]⟩⟩]) := by decide
  rw [h] at hrun
  simp only [Option.some.injEq, Prod.mk.injEq] at hrun
  rw [hrun.2]
  exact hnd

/-- The sizes of the visited set along a run: no snapshot is larger than the last
state, which is itself a snapshot, and the last state has more than `MAX_VISITED` keys
exactly when the run ended at the state cap. -/
theorem searchHistory_sizes (word : Str) (terminals nonterminals : List Str)
    (productions : List Production) (start : Str) (o : Outcome) (hist : List Snapshot)
    (hrun : searchHistory word terminals nonterminals productions start = some (o, hist)) :
    ∃ st2 : SearchState, (∃ s ∈ hist, s.state = st2)
      ∧ (∀ s ∈ hist, s.state.visited.length ≤ st2.visited.length)
      ∧ st2.visited.length ≤ MAX_VISITED + 1
      ∧ (o = .limitReached → st2.visited.length > MAX_VISITED)
      ∧ (o ≠ .limitReached → st2.visited.length ≤ MAX_VISITED) := by
  obtain ⟨st2, ⟨h1, h2, h3⟩, h4, h5⟩ := bfsHist_inv word terminals productions
    (fun hist st =>
      (∃ s ∈ hist, s.state = st)
      ∧ (∀ s ∈ hist, s.state.visited.length ≤ st.visited.length)
      ∧ st.visited.length ≤ MAX_VISITED + 1)
    (by
      rintro hist st next ⟨_, h2, _⟩ hlen _
      refine ⟨⟨_, List.mem_append_right _ (List.mem_singleton.mpr rfl), rfl⟩, ?_, ?_⟩
      · intro s hs
        rcases List.mem_append.mp hs with hs | hs
        · exact le_trans (h2 s hs) (by simp)
        · rw [List.mem_singleton] at hs
          rw [hs]
      · simp only [List.length_cons]
        omega)
    (by
      rintro hist c rest vis ⟨_, h2, h3⟩ _
      refine ⟨⟨_, List.mem_append_right _ (List.mem_singleton.mpr rfl), rfl⟩, ?_, h3⟩
      intro s hs
      rcases List.mem_append.mp hs with hs | hs
      · exact h2 s hs
      · rw [List.mem_singleton] at hs
        rw [hs])
    (MAX_VISITED + 1) (initState start) [⟨some [start], initState start⟩] o hist
    (by
      refine ⟨⟨_, List.mem_singleton.mpr rfl, rfl⟩, ?_, ?_⟩
      · intro s hs
        rw [List.mem_singleton] at hs
        rw [hs]
      · exact le_trans (initState_visited_length start) (Nat.le_succ _))
    (initState_visited_length start) hrun
  exact ⟨st2, h1, h2, h3, h4, h5⟩

/-- Claim C12, amended (state cap): at every point of every run of `checkWord` the
visited set holds at most `MAX_VISITED + 1` keys, and in a run that does not end at the
state cap it never holds more than `MAX_VISITED`; the cap is checked after the insertion
that exceeds it. -/
theorem checkWord_visited_bound (word : Str) (terminals nonterminals : List Str)
    (productions : List Production) (start : Str) :
    ∃ o hist, searchHistory word terminals nonterminals productions start = some (o, hist)
      ∧ searchOutcome word terminals nonterminals productions start = some o
      ∧ (∀ s ∈ hist, s.state.visited.length ≤ MAX_VISITED + 1)
      ∧ (o ≠ .limitReached → ∀ s ∈ hist, s.state.visited.length ≤ MAX_VISITED) := by
  obtain ⟨o, hist, hrun, hout⟩ :=
    searchHistory_some word terminals nonterminals productions start
  obtain ⟨st2, _, h2, h3, _, h5⟩ :=
    searchHistory_sizes word terminals nonterminals productions start o hist hrun
  exact ⟨o, hist, hrun, hout, fun s hs => le_trans (h2 s hs) h3,
    fun hne s hs => le_trans (h2 s hs) (h5 hne)⟩

theorem checkWord_visited_bound_witness :
    ∀ s ∈ [(⟨some [[83]], ⟨[[[83]]], [[0x1F, 83]]⟩⟩ : Snapshot),
        ⟨none, ⟨[], [[0x1F, 83]]⟩⟩,
        ⟨some [[97]], ⟨[[[97]]], [[0x1F, 97], [0x1F, 83]]⟩⟩,
        ⟨none, ⟨[], [[0x1F, 97], [0x1F, 83]]⟩⟩],
      s.state.visited.length ≤ MAX_VISITED := by
  obtain ⟨o, hist, hrun, _, _, hle⟩ :=
    checkWord_visited_bound [97] [[97]] [[83]] [⟨[[83]], [[97]]⟩] [83]
  have h : searchHistory [97] [[97]] [[83]] [⟨[[83]], [[97]]⟩] [83]
      = some (.found, [⟨some [[83]], ⟨[[[83]]], [[0x1F, 83]]⟩⟩,
          ⟨none, ⟨[], [[0x1F, 83]]⟩⟩,
          ⟨some [[97]], ⟨[[[97]]], [[0x1F, 97], [0x1F, 83]]⟩⟩,
          ⟨none, ⟨[], [[0x1F, 97], [0x1F, 83]]⟩⟩]) := by decide
  rw [h] at hrun
  simp only [Option.some.injEq, Prod.mk.injEq] at hrun
  rw [hrun.2]
  exact hle (by rw [← hrun.1]; decide)

/-! ### A run that exceeds the cap -/

theorem doubling_step (k : Nat) :
    Step doublingProductions (List.replicate (k + 1) [83]) (List.replicate (k + 2) [83]) :=
  ⟨⟨[[83]], [[83], [83]]⟩, by simp [doublingProductions], [], List.replicate k [83],
    rfl, rfl⟩

theorem doubling_separatorFree (k : Nat) :
    SeparatorFreeForm (List.replicate k ([83] : Str)) := by
  intro tk htk
  rw [(List.mem_replicate.mp htk).2]
  decide

theorem doubling_not_found (nonterminals : List Str) :
    searchOutcome [] [] nonterminals doublingProductions [83] ≠ some .found := by
  intro h
  obtain ⟨f, hf, hall, _⟩ :=
    (searchOutcome_invariant [] [] nonterminals doublingProductions [83]
      (fun f => f ≠ []) (by simp)
      (by
        rintro f g _ _ _ ⟨p, hp, u, v, _, hg⟩ _
        simp only [doublingProductions, List.mem_singleton] at hp
        rw [hg, hp]
        simp) _ h).1 rfl
  cases f with
  | nil => exact hf rfl
  | cons a l => exact absurd (hall a (by simp)) (by simp)

theorem doubling_not_exhausted (nonterminals : List Str) :
    searchOutcome [] [] nonterminals doublingProductions [83] ≠ some .exhausted := by
  intro h
  obtain ⟨vis, hlen, hsub, hclosed⟩ :=
    bfs_exhausted_length [] [] doublingProductions (by decide) _ (initState [83])
      (by
        intro f hf
        simp only [initState, List.mem_singleton] at hf
        rw [hf]
        decide)
      (initState_visited_length [83])
      (by
        intro f hf hk
        simp only [initState, List.mem_singleton] at hk
        left
        simp only [initState, List.mem_singleton]
        exact encodeForm_injective f [[83]] hf (by decide) hk)
      h
  have hall : ∀ k, encodeForm (List.replicate (k + 1) [83]) ∈ vis := by
    intro k
    induction k with
    | zero => exact hsub _ (by simp [initState])
    | succ k ih =>
      have hz : ∀ n, totalTerminalBytes [] (List.replicate n ([83] : Str)) = 0 :=
        fun n => totalTerminalBytes_eq_zero [] _ (by simp)
      exact ((hclosed _ (doubling_separatorFree (k + 1)) ih) (by rw [hz]; simp)).2
        ⟨[83], by simp, by simp⟩ _ (doubling_step k) (by rw [hz]; simp)
  have hnd : ((List.range (MAX_VISITED + 1)).map
      (fun k => encodeForm (List.replicate (k + 1) [83]))).Nodup := by
    refine List.Nodup.map_on ?_ (List.nodup_range _)
    intro x _ y _ hxy
    have := congrArg List.length (encodeForm_injective _ _
      (doubling_separatorFree (x + 1)) (doubling_separatorFree (y + 1)) hxy)
    simpa using this
  have hsubset : (List.range (MAX_VISITED + 1)).map
      (fun k => encodeForm (List.replicate (k + 1) [83])) ⊆ vis := by
    intro key hkey
    obtain ⟨k, _, rfl⟩ := List.mem_map.mp hkey
    exact hall k
  have hle := (List.subperm_of_subset hnd hsubset).length_le
  rw [List.length_map, List.length_range] at hle
  omega

/-- Claim C12 as stated fails.  With no terminals, start `S`, the production `S -> S S`
and the empty target, the run pushes `S S`, `S S S` and so on until the visited set
holds `MAX_VISITED + 1` keys, one more than the cap, and only then stops. -/
theorem checkWord_visited_counterexample :
    ∃ o hist, searchHistory [] [] [[83]] doublingProductions [83] = some (o, hist)
      ∧ ∃ s ∈ hist, s.state.visited.length = MAX_VISITED + 1 := by
  obtain ⟨o, hist, hrun, hout⟩ := searchHistory_some [] [] [[83]] doublingProductions [83]
  obtain ⟨st2, ⟨s, hs, hst⟩, _, h3, h4, _⟩ :=
    searchHistory_sizes [] [] [[83]] doublingProductions [83] o hist hrun
  have ho : o = .limitReached := by
    have h1 := doubling_not_found [[83]]
    have h2 := doubling_not_exhausted [[83]]
    rw [hout] at h1 h2
    cases o with
    | found => exact absurd rfl h1
    | exhausted => exact absurd rfl h2
    | limitReached => rfl
  refine ⟨o, hist, hrun, s, hs, ?_⟩
  rw [hst]
  have := h4 ho
  omega

end Compiler
